import Mathlib

/-!
Verification development for the koishi-plugin-d2rtz repository.

The development shallowly embeds the three source files:
  * the Terror-Zone rotation fetcher and formatter (fetchTzOnline,
    processTzOnlineData),
  * the OCR text preprocessor (preprocessOcrText) with its ordered
    JavaScript regex substitutions, and
  * the mock-mode and error-handling paths of the OCR and AI calls
    (recognizeImage, analyzeItem) together with the command handler tail.

External effects (file system, clock, HTTP) are passed in explicitly:
the cache file is a CacheView value, the clock is a JsDate value holding
the accessor results used by the code, and each HTTP interaction is a
NetOutcome value summarising the response.
-/

/-! ## JsDate and the fetchTzOnline cache rule (src/unnamed/part_000) -/

/-- View of a JavaScript Date restricted to the accessors the code calls:
getTime (ms), getFullYear (year), getMonth (month), getDate (day) and
getHours (hours). -/
structure JsDate where
  ms : Int
  year : Int
  month : Int
  day : Int
  hours : Int

/-- State of the cache file: whether it exists, its mtime, and the parsed
payload it holds. JSON serialisation is elided; the file stores a value of
the payload type directly. -/
structure CacheView (P : Type) where
  present : Bool
  mtime : JsDate
  content : P

/-- Summary of the HTTP GET response: response.ok, response.status and the
parsed body. -/
structure HttpResp (P : Type) where
  ok : Bool
  status : Int
  body : P

/-- Result of fetchTzOnline: the parsed payload, or the thrown HTTP error. -/
inductive FetchResult (P : Type) where
  | ok (v : P)
  | httpError (status : Int)
deriving DecidableEq

/-- Observable outcome of one fetchTzOnline call: the returned or thrown
value, whether a network request was issued, and the cache state left
behind. -/
structure FetchOut (P : Type) where
  result : FetchResult P
  didFetch : Bool
  cacheAfter : CacheView P

/-- Condition isSameHour of fetchTzOnline: equal getHours, getDate,
getMonth and getFullYear. -/
def sameHour (now cacheTime : JsDate) : Prop :=
  now.hours = cacheTime.hours ∧ now.day = cacheTime.day ∧
    now.month = cacheTime.month ∧ now.year = cacheTime.year

instance (now cacheTime : JsDate) : Decidable (sameHour now cacheTime) := by
  unfold sameHour; infer_instance

/-- Embedding of fetchTzOnline (src/unnamed/part_000 lines 14-75). The cache
is used when the file exists, the time difference is under 30 minutes and
the wall-clock hour fields agree; otherwise a GET is issued, a non-ok
response is thrown as an error, and an ok body is written to the cache and
returned. The write stamps the cache with the current time. -/
def fetchTzOnline {P : Type} (cache : CacheView P) (now : JsDate)
    (resp : HttpResp P) : FetchOut P :=
  if cache.present = true ∧
      now.ms - cache.mtime.ms < 30 * 60 * 1000 ∧ sameHour now cache.mtime then
    { result := .ok cache.content, didFetch := false, cacheAfter := cache }
  else if resp.ok then
    { result := .ok resp.body, didFetch := true,
      cacheAfter := { present := true, mtime := now, content := resp.body } }
  else
    { result := .httpError resp.status, didFetch := true, cacheAfter := cache }

/-! ## processTzOnlineData (src/unnamed/part_000 lines 117-154) -/

/-- Area table entry: display name and loot tier. -/
structure AreaInfo where
  name : String
  tier : String
deriving DecidableEq

/-- One rotation entry of the API payload. -/
structure TzEntry where
  zone : Int
  time : Int
deriving DecidableEq

/-- Shape of the data field of the payload: a truthy non-array value, or an
array of entries. An absent or falsy data field is modelled by Option.none
at the use site. -/
inductive TzDataField where
  | notArray
  | arr (entries : List TzEntry)

/-- Payload object; dataField is none when the data field is absent or
falsy. A null or falsy payload itself is modelled by Option.none at the
use site. -/
structure TzPayload where
  dataField : Option TzDataField

/-- Insertion step of the ascending-by-time sort: the new entry passes over
the strictly smaller times and lands in front of the first entry whose time
is not smaller. Since sortByTime inserts each entry into the sorted form of
the entries that followed it, an entry ties with equal-time entries that
originally came after it, and this insertion places it before all of them,
so equal keys keep their original relative order — matching the stable
Array.prototype.sort with comparator (a, b) => a.time - b.time. -/
def insertByTime (e : TzEntry) : List TzEntry → List TzEntry
  | [] => [e]
  | x :: xs => if x.time < e.time then x :: insertByTime e xs else e :: x :: xs

/-- Stable ascending sort by the time field. -/
def sortByTime : List TzEntry → List TzEntry
  | [] => []
  | x :: xs => insertByTime x (sortByTime xs)

/-- Two-line message assembled from the current and next area infos. -/
def formatTz (cur next : AreaInfo) : String :=
  "TZ：" ++ cur.name ++ "，掉落：" ++ cur.tier ++ "\n" ++
    "Next：" ++ next.name ++ "，掉落：" ++ next.tier

/-- Embedding of processTzOnlineData, parameterised by the area table
(the bundled raw_areas dataset is not part of the sources; the table is an
arbitrary partial map from zone ids to AreaInfo). Malformed payloads throw
Invalid data format; after sorting, the first two entries are looked up and
an absent table entry throws the corresponding not-found error. -/
def processTzOnlineData (areas : Int → Option AreaInfo)
    (payload : Option TzPayload) : Except String String :=
  match payload with
  | none => .error "Invalid data format"
  | some p =>
    match p.dataField with
    | none => .error "Invalid data format"
    | some .notArray => .error "Invalid data format"
    | some (.arr entries) =>
      if entries.length < 2 then .error "Invalid data format"
      else
        let sorted := sortByTime entries
        let cur := sorted.getD 0 ⟨0, 0⟩
        let next := sorted.getD 1 ⟨0, 0⟩
        match areas cur.zone with
        | none => .error ("Area info not found for current zone: " ++ toString cur.zone)
        | some curInfo =>
          match areas next.zone with
          | none => .error ("Area info not found for next zone: " ++ toString next.zone)
          | some nextInfo => .ok (formatTz curInfo nextInfo)

/-- Malformed payloads in the sense of the guard of processTzOnlineData:
falsy payload, absent or falsy data field, truthy non-array data field, or
an array of fewer than two entries. -/
def malformedTz : Option TzPayload → Prop
  | none => True
  | some p =>
    match p.dataField with
    | none => True
    | some .notArray => True
    | some (.arr es) => es.length < 2

/-! ## recognizeImage / analyzeItem (src/src/index.ts) -/

/-- Plugin configuration (Config of src/src/index.ts). -/
structure PluginConfig where
  apiUrl : Option String
  ocrApiUrl : String
  ocrApiKey : String
  aiApiUrl : String
  aiApiKey : String
  aiModel : String
  mockMode : Bool
  testMode : Bool

/-- Summary of one outbound HTTP interaction: an ok response carrying the
extracted choices[0].message.content chain value (none when the path is
missing or the content empty), a non-2xx response, or a thrown network
error. -/
inductive NetOutcome where
  | ok (content : Option String)
  | notOk (status : Int) (statusText : String)
  | thrown (msg : String)

/-- Structured result of recognizeImage. -/
structure OcrResult where
  success : Bool
  text : Option String
  error : Option String
deriving DecidableEq

/-- Structured result of analyzeItem. -/
structure AiResult where
  success : Bool
  analysis : Option String
  error : Option String
deriving DecidableEq

/-- Canned OCR text returned in mock mode. -/
def mockOcrText : String :=
  "暗黑破坏神装备信息：\n力量 +15\n敏捷 +10\n最大生命值 +20\n防御 +50\n等级需求 25\n稀有度：魔法物品"

/-- Canned analysis returned in mock mode. -/
def mockAnalysis : String :=
  "这是一件中级魔法装备，属性较为普通。力量和敏捷的加成对近战职业有一定帮助，但整体属性并不突出。建议作为过渡装备使用，不建议长期保留。"

/-- JavaScript x || d for a string-or-missing value: the default is used
when the value is absent or is the empty (falsy) string. -/
def jsOrDefault (v : Option String) (d : String) : String :=
  match v with
  | none => d
  | some s => if s = "" then d else s

/-- Embedding of recognizeImage (src/src/index.ts lines 34-101). Returns the
structured result together with a flag recording whether a network request
was issued. In mock mode the canned text is returned without any request;
otherwise the summarised response is turned into a success or a structured
failure. -/
def recognizeImage (config : PluginConfig) (imageUrl : String)
    (net : NetOutcome) : OcrResult × Bool :=
  if config.mockMode then
    ({ success := true, text := some mockOcrText, error := none }, false)
  else
    match net with
    | .ok content =>
      ({ success := true, text := some (jsOrDefault content "无法提取OCR文本"),
         error := none }, true)
    | .notOk status statusText =>
      ({ success := false, text := none,
         error := some ("OCR请求失败: " ++ toString status ++ " " ++ statusText) }, true)
    | .thrown msg =>
      ({ success := false, text := none,
         error := some ("OCR识别出错: " ++ msg) }, true)

/-- Embedding of analyzeItem (src/src/index.ts lines 148-207). The prompt
construction over the preprocessed OCR text only feeds the request body,
which the NetOutcome summarises, so it does not appear in the result. -/
def analyzeItem (config : PluginConfig) (ocrText : String)
    (net : NetOutcome) : AiResult × Bool :=
  if config.mockMode then
    ({ success := true, analysis := some mockAnalysis, error := none }, false)
  else
    match net with
    | .ok content =>
      ({ success := true,
         analysis := some (jsOrDefault content "无法获取AI分析结果"),
         error := none }, true)
    | .notOk status statusText =>
      ({ success := false, analysis := none,
         error := some ("AI分析请求失败: " ++ toString status ++ " " ++ statusText) }, true)
    | .thrown msg =>
      ({ success := false, analysis := none,
         error := some ("AI分析出错: " ++ msg) }, true)

/-- Tail of the 鉴定 command handler after an image source is available
(src/src/index.ts lines 266-281): run OCR, on failure reply with the OCR
failure string, else run the AI analysis, on failure reply with the AI
failure string, else reply with the analysis. JavaScript renders an absent
field in a template literal as the string undefined. -/
def identifyReply (config : PluginConfig) (src : String)
    (ocrNet aiNet : NetOutcome) : String :=
  let ocrR := (recognizeImage config src ocrNet).1
  if ocrR.success = false then
    "装备属性识别失败: " ++ ocrR.error.getD "undefined"
  else
    let aiR := (analyzeItem config (ocrR.text.getD "undefined") aiNet).1
    if aiR.success = false then
      "装备价值分析失败: " ++ aiR.error.getD "undefined"
    else
      aiR.analysis.getD "undefined"

/-! ## Helper lemmas for the rotation sorter and for string facts -/

theorem insertByTime_length (e : TzEntry) (l : List TzEntry) :
    (insertByTime e l).length = l.length + 1 := by
  induction l with
  | nil => rfl
  | cons x xs ih =>
    unfold insertByTime
    by_cases h : x.time < e.time
    · simp [h, ih]
    · simp [h]

theorem sortByTime_length (l : List TzEntry) :
    (sortByTime l).length = l.length := by
  induction l with
  | nil => rfl
  | cons x xs ih => simp [sortByTime, insertByTime_length, ih]

theorem insertByTime_mem (e y : TzEntry) (l : List TzEntry) :
    y ∈ insertByTime e l ↔ y = e ∨ y ∈ l := by
  induction l with
  | nil => simp [insertByTime]
  | cons x xs ih =>
    unfold insertByTime
    by_cases h : x.time < e.time
    · simp only [h, if_true, List.mem_cons, ih]
      tauto
    · simp only [h, if_false, List.mem_cons]

theorem insertByTime_sorted (e : TzEntry) (l : List TzEntry)
    (h : l.Pairwise (fun a b => a.time ≤ b.time)) :
    (insertByTime e l).Pairwise (fun a b => a.time ≤ b.time) := by
  induction l with
  | nil => simp [insertByTime]
  | cons x xs ih =>
    unfold insertByTime
    rw [List.pairwise_cons] at h
    by_cases hx : x.time < e.time
    · rw [if_pos hx, List.pairwise_cons]
      refine ⟨?_, ih h.2⟩
      intro y hy
      rcases (insertByTime_mem e y xs).mp hy with hy | hy
      · rw [hy]
        omega
      · exact h.1 y hy
    · rw [if_neg hx, List.pairwise_cons]
      refine ⟨?_, List.pairwise_cons.mpr h⟩
      intro y hy
      rcases List.mem_cons.mp hy with hy | hy
      · rw [hy]
        omega
      · have := h.1 y hy
        omega

/-- The model sort produces an ascending-by-time list. -/
theorem sortByTime_sorted (l : List TzEntry) :
    (sortByTime l).Pairwise (fun a b => a.time ≤ b.time) := by
  induction l with
  | nil => simp [sortByTime]
  | cons x xs ih => exact insertByTime_sorted x _ ih

theorem insertByTime_perm (e : TzEntry) (l : List TzEntry) :
    List.Perm (insertByTime e l) (e :: l) := by
  induction l with
  | nil => exact List.Perm.refl _
  | cons x xs ih =>
    unfold insertByTime
    by_cases h : x.time < e.time
    · rw [if_pos h]
      exact (List.Perm.cons x ih).trans (List.Perm.swap e x xs)
    · rw [if_neg h]

/-- The model sort is a permutation of its input. -/
theorem sortByTime_perm (l : List TzEntry) : List.Perm (sortByTime l) l := by
  induction l with
  | nil => exact List.Perm.refl _
  | cons x xs ih => exact (insertByTime_perm x _).trans (List.Perm.cons x ih)

theorem insertByTime_filter (e : TzEntry) (l : List TzEntry) (t : Int) :
    (insertByTime e l).filter (fun x => decide (x.time = t)) =
      if e.time = t then e :: l.filter (fun x => decide (x.time = t))
      else l.filter (fun x => decide (x.time = t)) := by
  induction l with
  | nil =>
    by_cases he : e.time = t <;> simp [insertByTime, he]
  | cons x xs ih =>
    unfold insertByTime
    by_cases hx : x.time < e.time
    · rw [if_pos hx]
      by_cases hxt : x.time = t
      · have het : ¬ e.time = t := by omega
        simp [List.filter_cons, hxt, het, ih]
      · by_cases het : e.time = t
        · simp [List.filter_cons, hxt, het, ih]
        · simp [List.filter_cons, hxt, het, ih]
    · rw [if_neg hx]
      by_cases het : e.time = t
      · simp [List.filter_cons, het]
      · simp [List.filter_cons, het]

/-- Stability: for every time value, the subsequence of entries carrying
that time is unchanged by the sort, exactly as for the stable
Array.prototype.sort of the program. Together with sortByTime_sorted and
sortByTime_perm this determines sortByTime uniquely as the stable
ascending-by-time sort. -/
theorem sortByTime_stable (l : List TzEntry) (t : Int) :
    (sortByTime l).filter (fun x => decide (x.time = t)) =
      l.filter (fun x => decide (x.time = t)) := by
  induction l with
  | nil => rfl
  | cons x xs ih =>
    show (insertByTime x (sortByTime xs)).filter _ = _
    rw [insertByTime_filter]
    by_cases hxt : x.time = t
    · rw [if_pos hxt, ih]
      simp [List.filter_cons, hxt]
    · rw [if_neg hxt, ih]
      simp [List.filter_cons, hxt]

theorem append_ne_empty_left (a b : String) (ha : a.length ≠ 0) :
    a ++ b ≠ "" := by
  intro h
  have hl := congrArg String.length h
  rw [String.length_append] at hl
  have : String.length "" = 0 := rfl
  omega

/-- Unfolding of processTzOnlineData on a payload with an array data field. -/
theorem processTzOnlineData_arr_def (areas : Int → Option AreaInfo)
    (entries : List TzEntry) :
    processTzOnlineData areas (some ⟨some (.arr entries)⟩) =
      if entries.length < 2 then .error "Invalid data format"
      else
        match areas ((sortByTime entries).getD 0 ⟨0, 0⟩).zone with
        | none => .error ("Area info not found for current zone: " ++
            toString ((sortByTime entries).getD 0 ⟨0, 0⟩).zone)
        | some curInfo =>
          match areas ((sortByTime entries).getD 1 ⟨0, 0⟩).zone with
          | none => .error ("Area info not found for next zone: " ++
              toString ((sortByTime entries).getD 1 ⟨0, 0⟩).zone)
          | some nextInfo => .ok (formatTz curInfo nextInfo) := rfl

/-- C1: for an existing cache file written at time cache.mtime and a call at
time now, fetchTzOnline returns the parsed cache content, with no request
issued and the cache untouched, exactly when the two times have equal hour,
day, month and year fields and differ by less than 30 minutes; otherwise a
GET is issued and a 2xx response overwrites the cache with the response
body and returns it. -/
theorem fetchTzOnline_cache_rule {P : Type} (cache : CacheView P)
    (now : JsDate) (resp : HttpResp P) (hpres : cache.present = true) :
    (((fetchTzOnline cache now resp).didFetch = false ∧
        (fetchTzOnline cache now resp).result = .ok cache.content ∧
        (fetchTzOnline cache now resp).cacheAfter = cache) ↔
      (sameHour now cache.mtime ∧ now.ms - cache.mtime.ms < 30 * 60 * 1000)) ∧
    (¬ (sameHour now cache.mtime ∧ now.ms - cache.mtime.ms < 30 * 60 * 1000) →
      (fetchTzOnline cache now resp).didFetch = true ∧
      (resp.ok = true →
        (fetchTzOnline cache now resp).result = .ok resp.body ∧
        (fetchTzOnline cache now resp).cacheAfter.content = resp.body ∧
        (fetchTzOnline cache now resp).cacheAfter.present = true)) := by
  unfold fetchTzOnline
  by_cases hc : cache.present = true ∧
      now.ms - cache.mtime.ms < 30 * 60 * 1000 ∧ sameHour now cache.mtime
  · rw [if_pos hc]
    refine ⟨⟨fun _ => ⟨hc.2.2, hc.2.1⟩, fun _ => ⟨rfl, rfl, rfl⟩⟩, ?_⟩
    intro hmiss
    exact absurd ⟨hc.2.2, hc.2.1⟩ hmiss
  · rw [if_neg hc]
    have hmiss : ¬ (sameHour now cache.mtime ∧
        now.ms - cache.mtime.ms < 30 * 60 * 1000) := by
      intro h
      exact hc ⟨hpres, h.2, h.1⟩
    by_cases ho : resp.ok = true
    · rw [if_pos ho]
      refine ⟨⟨fun h => absurd h.1 (by simp), fun h => absurd h hmiss⟩, ?_⟩
      exact fun _ => ⟨rfl, fun _ => ⟨rfl, rfl, rfl⟩⟩
    · rw [if_neg ho]
      refine ⟨⟨fun h => absurd h.1 (by simp), fun h => absurd h hmiss⟩, ?_⟩
      exact fun _ => ⟨rfl, fun h => absurd h ho⟩

theorem fetchTzOnline_cache_rule_witness :
    (⟨true, ⟨0, 2024, 4, 1, 10⟩, 7⟩ : CacheView Nat).present = true ∧
      (fetchTzOnline (⟨true, ⟨0, 2024, 4, 1, 10⟩, 7⟩ : CacheView Nat)
        ⟨1000, 2024, 4, 1, 10⟩ ⟨true, 200, 9⟩).didFetch = false := by
  have h := fetchTzOnline_cache_rule (⟨true, ⟨0, 2024, 4, 1, 10⟩, 7⟩ : CacheView Nat)
    ⟨1000, 2024, 4, 1, 10⟩ ⟨true, 200, 9⟩ rfl
  exact ⟨rfl, (h.1.mpr ⟨⟨rfl, rfl, rfl, rfl⟩, by decide⟩).1⟩

/-- C2: for a payload whose entry list sorts by time to e1 followed by e2,
with both zone ids mapped in the area table, processTzOnlineData returns
the two-line formatted string naming the two areas and tiers. -/
theorem processTzOnlineData_formats (areas : Int → Option AreaInfo)
    (entries : List TzEntry) (e1 e2 : TzEntry) (rest : List TzEntry)
    (n1 t1 n2 t2 : String)
    (hs : sortByTime entries = e1 :: e2 :: rest)
    (h1 : areas e1.zone = some ⟨n1, t1⟩) (h2 : areas e2.zone = some ⟨n2, t2⟩) :
    processTzOnlineData areas (some ⟨some (.arr entries)⟩) =
      .ok ("TZ：" ++ n1 ++ "，掉落：" ++ t1 ++ "\n" ++
        "Next：" ++ n2 ++ "，掉落：" ++ t2) := by
  have hlen : ¬ entries.length < 2 := by
    have hl := sortByTime_length entries
    rw [hs] at hl
    simp at hl
    omega
  rw [processTzOnlineData_arr_def, if_neg hlen]
  simp only [hs, List.getD_cons_zero, List.getD_cons_succ, h1, h2]
  rfl

def demoAreas : Int → Option AreaInfo := fun z =>
  if z = 1 then some ⟨"A", "X"⟩ else if z = 2 then some ⟨"B", "Y"⟩ else none

theorem processTzOnlineData_formats_witness :
    sortByTime [⟨1, 100⟩, ⟨2, 100⟩] = [⟨1, 100⟩, ⟨2, 100⟩] ∧
      processTzOnlineData demoAreas (some ⟨some (.arr [⟨1, 100⟩, ⟨2, 100⟩])⟩) =
        .ok "TZ：A，掉落：X\nNext：B，掉落：Y" := by
  have h := processTzOnlineData_formats demoAreas [⟨1, 100⟩, ⟨2, 100⟩]
    ⟨1, 100⟩ ⟨2, 100⟩ [] "A" "X" "B" "Y" (by decide) (by decide) (by decide)
  exact ⟨by decide, h.trans (congrArg Except.ok (by decide))⟩

/-- C6: every payload whose data field is missing or falsy, not an array, or
an array of fewer than two entries makes processTzOnlineData raise the
malformed-data error, never a formatted string. -/
theorem processTzOnlineData_malformed (areas : Int → Option AreaInfo)
    (payload : Option TzPayload) (h : malformedTz payload) :
    processTzOnlineData areas payload = .error "Invalid data format" ∧
      ∀ s, processTzOnlineData areas payload ≠ .ok s := by
  have herr : processTzOnlineData areas payload = .error "Invalid data format" := by
    match payload with
    | none => rfl
    | some ⟨none⟩ => rfl
    | some ⟨some .notArray⟩ => rfl
    | some ⟨some (.arr es)⟩ =>
      have hlt : es.length < 2 := h
      rw [processTzOnlineData_arr_def, if_pos hlt]
  refine ⟨herr, ?_⟩
  intro s hok
  rw [herr] at hok
  exact Except.noConfusion hok

theorem processTzOnlineData_malformed_witness :
    malformedTz (some ⟨some (.arr [⟨1, 100⟩])⟩) ∧
      processTzOnlineData demoAreas (some ⟨some (.arr [⟨1, 100⟩])⟩) =
        .error "Invalid data format" := by
  have hm : malformedTz (some ⟨some (.arr [⟨1, 100⟩])⟩) := by
    show ([(⟨1, 100⟩ : TzEntry)]).length < 2
    decide
  exact ⟨hm, (processTzOnlineData_malformed demoAreas _ hm).1⟩

/-- C7: for a well-shaped payload whose sorted entry list starts with e1
then e2, an unmapped current zone raises the current-zone not-found error
naming that id, a mapped current zone with an unmapped next zone raises the
next-zone not-found error naming that id, and in either case no formatted
string is returned. -/
theorem processTzOnlineData_area_missing (areas : Int → Option AreaInfo)
    (entries : List TzEntry) (e1 e2 : TzEntry) (rest : List TzEntry)
    (hs : sortByTime entries = e1 :: e2 :: rest) :
    (areas e1.zone = none →
      processTzOnlineData areas (some ⟨some (.arr entries)⟩) =
        .error ("Area info not found for current zone: " ++ toString e1.zone)) ∧
    (∀ i, areas e1.zone = some i → areas e2.zone = none →
      processTzOnlineData areas (some ⟨some (.arr entries)⟩) =
        .error ("Area info not found for next zone: " ++ toString e2.zone)) ∧
    ((areas e1.zone = none ∨ areas e2.zone = none) →
      ∀ s, processTzOnlineData areas (some ⟨some (.arr entries)⟩) ≠ .ok s) := by
  have hlen : ¬ entries.length < 2 := by
    have hl := sortByTime_length entries
    rw [hs] at hl
    simp at hl
    omega
  have hcur : ∀ _ : areas e1.zone = none,
      processTzOnlineData areas (some ⟨some (.arr entries)⟩) =
        .error ("Area info not found for current zone: " ++ toString e1.zone) := by
    intro h1
    rw [processTzOnlineData_arr_def, if_neg hlen]
    simp only [hs, List.getD_cons_zero, List.getD_cons_succ, h1]
  have hnext : ∀ i, areas e1.zone = some i → ∀ _ : areas e2.zone = none,
      processTzOnlineData areas (some ⟨some (.arr entries)⟩) =
        .error ("Area info not found for next zone: " ++ toString e2.zone) := by
    intro i h1 h2
    rw [processTzOnlineData_arr_def, if_neg hlen]
    simp only [hs, List.getD_cons_zero, List.getD_cons_succ, h1, h2]
  refine ⟨hcur, fun i h1 h2 => hnext i h1 h2, ?_⟩
  rintro (h1 | h2) s hok
  · rw [hcur h1] at hok
    exact Except.noConfusion hok
  · match hi : areas e1.zone with
    | none =>
      rw [hcur hi] at hok
      exact Except.noConfusion hok
    | some i =>
      rw [hnext i hi h2] at hok
      exact Except.noConfusion hok

def demoAreasNoOne : Int → Option AreaInfo := fun z =>
  if z = 2 then some ⟨"B", "Y"⟩ else if z = 3 then some ⟨"C", "Z"⟩ else none

theorem processTzOnlineData_area_missing_witness :
    sortByTime [⟨1, 100⟩, ⟨2, 100⟩, ⟨3, 100⟩] = [⟨1, 100⟩, ⟨2, 100⟩, ⟨3, 100⟩] ∧
      processTzOnlineData demoAreasNoOne
        (some ⟨some (.arr [⟨1, 100⟩, ⟨2, 100⟩, ⟨3, 100⟩])⟩) =
        .error ("Area info not found for current zone: " ++ toString (1 : Int)) := by
  have h := processTzOnlineData_area_missing demoAreasNoOne
    [⟨1, 100⟩, ⟨2, 100⟩, ⟨3, 100⟩] ⟨1, 100⟩ ⟨2, 100⟩ [⟨3, 100⟩] (by decide)
  exact ⟨by decide, h.1 rfl⟩

theorem concat3_ne_empty (l x y z : String) (hl : l.length ≠ 0) :
    l ++ x ++ y ++ z ≠ "" := by
  intro h
  have hlen := congrArg String.length h
  simp only [String.length_append] at hlen
  have : String.length "" = 0 := rfl
  omega

/-- C8: with mock mode off, a non-2xx response or a thrown network error in
the OCR call or in the AI call never escapes: the function returns a
structured failure with a non-empty error message, and the command handler
turns it into the corresponding user-facing failure string. -/
theorem ocr_ai_failures_reported (config : PluginConfig)
    (hm : config.mockMode = false) :
    (∀ url status statusText,
      (recognizeImage config url (.notOk status statusText)).1.success = false ∧
      (recognizeImage config url (.notOk status statusText)).1.error =
        some ("OCR请求失败: " ++ toString status ++ " " ++ statusText) ∧
      ("OCR请求失败: " ++ toString status ++ " " ++ statusText) ≠ "" ∧
      ∀ aiNet, identifyReply config url (.notOk status statusText) aiNet =
        "装备属性识别失败: " ++ ("OCR请求失败: " ++ toString status ++ " " ++ statusText)) ∧
    (∀ url msg,
      (recognizeImage config url (.thrown msg)).1.success = false ∧
      (recognizeImage config url (.thrown msg)).1.error =
        some ("OCR识别出错: " ++ msg) ∧
      ("OCR识别出错: " ++ msg) ≠ "" ∧
      ∀ aiNet, identifyReply config url (.thrown msg) aiNet =
        "装备属性识别失败: " ++ ("OCR识别出错: " ++ msg)) ∧
    (∀ txt status statusText,
      (analyzeItem config txt (.notOk status statusText)).1.success = false ∧
      (analyzeItem config txt (.notOk status statusText)).1.error =
        some ("AI分析请求失败: " ++ toString status ++ " " ++ statusText) ∧
      ("AI分析请求失败: " ++ toString status ++ " " ++ statusText) ≠ "" ∧
      ∀ url content, identifyReply config url (.ok content) (.notOk status statusText) =
        "装备价值分析失败: " ++ ("AI分析请求失败: " ++ toString status ++ " " ++ statusText)) ∧
    (∀ txt msg,
      (analyzeItem config txt (.thrown msg)).1.success = false ∧
      (analyzeItem config txt (.thrown msg)).1.error =
        some ("AI分析出错: " ++ msg) ∧
      ("AI分析出错: " ++ msg) ≠ "" ∧
      ∀ url content, identifyReply config url (.ok content) (.thrown msg) =
        "装备价值分析失败: " ++ ("AI分析出错: " ++ msg)) := by
  refine ⟨fun url status statusText => ?_, fun url msg => ?_,
    fun txt status statusText => ?_, fun txt msg => ?_⟩
  · refine ⟨by simp [recognizeImage, hm], by simp [recognizeImage, hm],
      concat3_ne_empty _ _ _ _ (by decide), fun aiNet => ?_⟩
    simp [identifyReply, recognizeImage, hm]
  · refine ⟨by simp [recognizeImage, hm], by simp [recognizeImage, hm],
      append_ne_empty_left _ _ (by decide), fun aiNet => ?_⟩
    simp [identifyReply, recognizeImage, hm]
  · refine ⟨by simp [analyzeItem, hm], by simp [analyzeItem, hm],
      concat3_ne_empty _ _ _ _ (by decide), fun url content => ?_⟩
    simp [identifyReply, recognizeImage, analyzeItem, hm]
  · refine ⟨by simp [analyzeItem, hm], by simp [analyzeItem, hm],
      append_ne_empty_left _ _ (by decide), fun url content => ?_⟩
    simp [identifyReply, recognizeImage, analyzeItem, hm]

theorem ocr_ai_failures_reported_witness :
    (⟨none, "", "", "", "", "", false, false⟩ : PluginConfig).mockMode = false ∧
      (recognizeImage ⟨none, "", "", "", "", "", false, false⟩ "u"
        (.notOk 500 "Internal")).1.success = false ∧
      identifyReply ⟨none, "", "", "", "", "", false, false⟩ "u"
        (.notOk 500 "Internal") (.ok none) =
        "装备属性识别失败: " ++ ("OCR请求失败: " ++ toString (500 : Int) ++ " " ++ "Internal") := by
  have h := ocr_ai_failures_reported ⟨none, "", "", "", "", "", false, false⟩ rfl
  exact ⟨rfl, (h.1 "u" 500 "Internal").1, (h.1 "u" 500 "Internal").2.2.2 (.ok none)⟩

/-- C9: with mock mode on, recognizeImage and analyzeItem issue no network
request and return the fixed canned success value, independent of the image
URL, the OCR text and the summarised network outcome. -/
theorem mock_mode_fixed (config : PluginConfig) (hm : config.mockMode = true) :
    (∀ url net, recognizeImage config url net =
      ({ success := true, text := some mockOcrText, error := none }, false)) ∧
    (∀ txt net, analyzeItem config txt net =
      ({ success := true, analysis := some mockAnalysis, error := none }, false)) ∧
    (∀ url url2 net net2,
      recognizeImage config url net = recognizeImage config url2 net2) ∧
    (∀ txt txt2 net net2,
      analyzeItem config txt net = analyzeItem config txt2 net2) := by
  simp [recognizeImage, analyzeItem, hm]

theorem mock_mode_fixed_witness :
    (⟨none, "", "", "", "", "", true, false⟩ : PluginConfig).mockMode = true ∧
      recognizeImage ⟨none, "", "", "", "", "", true, false⟩ "x" (.thrown "boom") =
        ({ success := true, text := some mockOcrText, error := none }, false) := by
  have h := mock_mode_fixed ⟨none, "", "", "", "", "", true, false⟩ rfl
  exact ⟨rfl, h.1 "x" (.thrown "boom")⟩

/-! ## preprocessOcrText (src/src/index.ts lines 104-145)

The five regex substitutions, the blank-line collapse and the trim are
embedded as fuelled left-to-right scanners over the character list,
mirroring the global-replace semantics of the JavaScript engine (leftmost
match, greedy quantifiers with backtracking, scanning resuming after each
match). The fuel is the input length: every step consumes at least one
character, so the fuel is never exhausted on the initial call. -/

/-- Whitespace class of JavaScript regex backslash-s and of
String.prototype.trim. -/
def isJsWs (c : Char) : Bool :=
  c == ' ' || c == '\t' || c == '\n' || c == '\u000B' || c == '\u000C' ||
  c == '\r' || c == '\u00A0' || c == '\u1680' ||
  (decide (0x2000 ≤ c.val) && decide (c.val ≤ 0x200A)) ||
  c == '\u2028' || c == '\u2029' || c == '\u202F' || c == '\u205F' ||
  c == '\u3000' || c == '\uFEFF'

/-- Line terminators, the characters not matched by the regex dot. -/
def isLineTerm (c : Char) : Bool :=
  c == '\n' || c == '\r' || c == '\u2028' || c == '\u2029'

/-- Test for the lookahead text ETH followed by a closing bracket. -/
def startsETHRB (l : List Char) : Bool :=
  match l with
  | a :: b :: c :: d :: _ => a == 'E' && b == 'T' && c == 'H' && d == ']'
  | _ => false

/-- Suffix just after the first closing square bracket, if one occurs. -/
def afterRB : List Char → Option (List Char)
  | [] => none
  | c :: r => if c == ']' then some r else afterRB r

/-- Suffix just after the first closing corner bracket, if one occurs. -/
def afterJp : List Char → Option (List Char)
  | [] => none
  | c :: r => if c == '』' then some r else afterJp r

/-- Greedy regex dot-star: skip to the first line terminator or the end. -/
def dropLine : List Char → List Char
  | [] => []
  | c :: r => if isLineTerm c then c :: r else dropLine r

/-- One step of a global-replace scanner: given the current character and
the rest of the input, a successful match at this position returns the
characters the replacement emits together with the continuation just after
the match; no match means the character is copied. -/
def scanGo (step : Char → List Char → Option (List Char × List Char)) :
    Nat → List Char → List Char
  | 0, s => s
  | _ + 1, [] => []
  | fuel + 1, c :: r =>
    match step c r with
    | some (e, r2) => e ++ scanGo step fuel r2
    | none => c :: scanGo step fuel r

/-- Match step of the first substitution, removing every bracket group not
opening with the ETH marker: an opening bracket whose following text is not
ETH-close is removed together with everything up to the first closing
bracket; with the ETH lookahead or with no closing bracket there is no
match. -/
def brStep (c : Char) (r : List Char) : Option (List Char × List Char) :=
  if c == '[' then
    if startsETHRB r then none
    else (afterRB r).map (fun r2 => ([], r2))
  else none

def stripBr (s : List Char) : List Char := scanGo brStep s.length s

/-- Matcher for the tail of the numeric tag pattern digits ED slash
digit-or-slash-plus close-bracket, applied to the text after an opening
bracket; returns the rest after the closing bracket on success. -/
def numTail (l : List Char) : Option (List Char) :=
  let ds := l.takeWhile (fun c => c.isDigit)
  let l1 := l.dropWhile (fun c => c.isDigit)
  if ds.isEmpty then none
  else
    match l1 with
    | a :: b :: c :: l2 =>
      if a == 'E' && b == 'D' && c == '/' then
        let fs := l2.takeWhile (fun c => c.isDigit || c == '/')
        let l3 := l2.dropWhile (fun c => c.isDigit || c == '/')
        if fs.isEmpty then none
        else
          match l3 with
          | d :: l4 => if d == ']' then some l4 else none
          | [] => none
      else none
    | _ => none

/-- Match step of the second substitution, removing numeric tags of the
form open-bracket digits ED slash digits-and-slashes close-bracket. -/
def numStep (c : Char) (r : List Char) : Option (List Char × List Char) :=
  if c == '[' then (numTail r).map (fun r2 => ([], r2)) else none

def stripNum (s : List Char) : List Char := scanGo numStep s.length s

/-- Match step of the third substitution, removing corner-bracket groups. -/
def jpStep (c : Char) (r : List Char) : Option (List Char × List Char) :=
  if c == '『' then (afterJp r).map (fun r2 => ([], r2)) else none

def stripJp (s : List Char) : List Char := scanGo jpStep s.length s

/-- Full-width or plain colon. -/
def isColon (c : Char) : Bool := c == '：' || c == ':'

/-- Match step of the fourth substitution, removing a zhui character
followed by a colon and the rest of the line. -/
def zhStep (c : Char) (r : List Char) : Option (List Char × List Char) :=
  if c == '缀' then
    match r with
    | c2 :: r2 => if isColon c2 then some ([], dropLine r2) else none
    | [] => none
  else none

def stripZhui (s : List Char) : List Char := scanGo zhStep s.length s

/-- Match step of the fifth substitution, removing a qian-zhui pair
followed by a colon and the rest of the line. -/
def qzStep (c : Char) (r : List Char) : Option (List Char × List Char) :=
  if c == '前' then
    match r with
    | c2 :: c3 :: r3 =>
      if c2 == '缀' && isColon c3 then some ([], dropLine r3) else none
    | _ => none
  else none

def stripQz (s : List Char) : List Char := scanGo qzStep s.length s

/-- Backtracking step of the blank-line collapse: within the maximal
whitespace prefix of the list, find the last newline and return the suffix
just after it. The greedy whitespace-star of the pattern backtracks until
the final mandatory newline matches, so the match extends exactly to the
last newline of the whitespace run. -/
def lastNlSplit : List Char → Option (List Char)
  | [] => none
  | c :: r =>
    if isJsWs c then
      match lastNlSplit r with
      | some r2 => some r2
      | none => if c == '\n' then some r else none
    else none

/-- Match step of the sixth substitution, collapsing a newline, whitespace
and a newline into a single newline. -/
def nlStep (c : Char) (r : List Char) : Option (List Char × List Char) :=
  if c == '\n' then (lastNlSplit r).map (fun r2 => (['\n'], r2)) else none

def collapseBlank (s : List Char) : List Char := scanGo nlStep s.length s

/-- Remove trailing JavaScript whitespace. -/
def dropEndWs : List Char → List Char
  | [] => []
  | c :: r =>
    match dropEndWs r with
    | [] => if isJsWs c then [] else [c]
    | x :: xs => c :: x :: xs

/-- String.prototype.trim: remove leading and trailing whitespace. -/
def jsTrim (s : List Char) : List Char := dropEndWs (s.dropWhile isJsWs)

/-- String.prototype.split on the newline character. -/
def splitNl : List Char → List (List Char)
  | [] => [[]]
  | c :: r =>
    if c == '\n' then [] :: splitNl r
    else
      match splitNl r with
      | [] => [[c]]
      | l :: ls => (c :: l) :: ls

/-- Test whether the needle occurs at the start of the haystack. -/
def hasPre : List Char → List Char → Bool
  | [], _ => true
  | _ :: _, [] => false
  | n :: ns, h :: hs => n == h && hasPre ns hs

/-- String.prototype.includes: contiguous substring test. -/
def hasSub (needle : List Char) : List Char → Bool
  | [] => needle.isEmpty
  | h :: hs => hasPre needle (h :: hs) || hasSub needle hs

/-- Level-requirement marker test of preprocessOcrText: the line contains
one of the three recognised phrasings. -/
def isMarkerLine (l : List Char) : Bool :=
  hasSub ("需要等級").data l || hasSub ("等级需求").data l ||
    hasSub ("Requires Level").data l

/-- Index of the first line containing a level-requirement marker. -/
def firstMarkerIdx : List (List Char) → Option Nat
  | [] => none
  | l :: ls =>
    if isMarkerLine l then some 0 else (firstMarkerIdx ls).map (· + 1)

/-- Array.prototype.join with a newline separator. -/
def joinNl : List (List Char) → List Char
  | [] => []
  | [l] => l
  | l :: ls => l ++ '\n' :: joinNl ls

/-- Line-truncation step of preprocessOcrText: when a marker line exists at
index i, keep the first min 3 i lines and everything from the marker line
on, rejoin with newlines and trim; otherwise return the text unchanged. -/
def levelTrunc (p : List Char) : List Char :=
  let lines := splitNl p
  match firstMarkerIdx lines with
  | none => p
  | some i =>
    jsTrim (joinNl (lines.take (min 3 i) ++ lines.drop i))

/-- Text after the five substitutions, the blank-line collapse and the
trim, before the line-truncation step. -/
def cleanedText (s : List Char) : List Char :=
  jsTrim (collapseBlank (stripQz (stripZhui (stripJp (stripNum (stripBr s))))))

/-- Embedding of preprocessOcrText on character lists. -/
def preprocessOcrTextL (s : List Char) : List Char :=
  levelTrunc (cleanedText s)

/-- Embedding of preprocessOcrText (src/src/index.ts lines 104-145). -/
def preprocessOcrText (s : String) : String :=
  ⟨preprocessOcrTextL s.data⟩

/-! ## Characterisation of the marker search -/

theorem firstMarkerIdx_none_iff (ls : List (List Char)) :
    firstMarkerIdx ls = none ↔ ∀ l ∈ ls, isMarkerLine l = false := by
  induction ls with
  | nil => simp [firstMarkerIdx]
  | cons l ls ih =>
    by_cases hm : isMarkerLine l
    · simp [firstMarkerIdx, hm]
    · simp only [firstMarkerIdx, hm, if_false, List.mem_cons]
      constructor
      · intro h
        have hnone : firstMarkerIdx ls = none := by
          cases hh : firstMarkerIdx ls with
          | none => rfl
          | some m => rw [hh] at h; simp at h
        intro x hx
        rcases hx with hx | hx
        · subst hx; exact Bool.eq_false_iff.mpr hm
        · exact (ih.mp hnone) x hx
      · intro h
        have : firstMarkerIdx ls = none := ih.mpr (fun x hx => h x (Or.inr hx))
        rw [this]; rfl

theorem firstMarkerIdx_some_iff (ls : List (List Char)) (i : Nat) :
    firstMarkerIdx ls = some i ↔
      (i < ls.length ∧ isMarkerLine (ls.getD i []) = true ∧
        ∀ j, j < i → isMarkerLine (ls.getD j []) = false) := by
  induction ls generalizing i with
  | nil => simp [firstMarkerIdx]
  | cons l ls ih =>
    by_cases hm : isMarkerLine l
    · simp only [firstMarkerIdx, hm, if_true]
      constructor
      · intro h
        have hi : i = 0 := by
          have := Option.some_injective _ h
          omega
        subst hi
        exact ⟨by simp, by simpa using hm, fun j hj => absurd hj (Nat.not_lt_zero j)⟩
      · rintro ⟨hi, hmark, hbef⟩
        cases i with
        | zero => rfl
        | succ n =>
          have h0 := hbef 0 (Nat.succ_pos n)
          simp at h0
          exact absurd hm (by simp [h0])
    · simp only [firstMarkerIdx, hm, if_false]
      cases i with
      | zero =>
        constructor
        · intro h
          cases hh : firstMarkerIdx ls with
          | none => rw [hh] at h; simp at h
          | some m => rw [hh] at h; simp at h
        · rintro ⟨hi, hmark, _⟩
          simp at hmark
          exact absurd hmark hm
      | succ n =>
        constructor
        · intro h
          have hsome : firstMarkerIdx ls = some n := by
            cases hh : firstMarkerIdx ls with
            | none => rw [hh] at h; simp at h
            | some m =>
              rw [hh] at h
              simp at h
              rw [h]
          obtain ⟨hlen, hmark, hbef⟩ := (ih n).mp hsome
          refine ⟨by simpa using Nat.succ_lt_succ hlen, by simpa using hmark, ?_⟩
          intro j hj
          cases j with
          | zero => simpa using Bool.eq_false_iff.mpr hm
          | succ k => simpa using hbef k (by omega)
        · rintro ⟨hi, hmark, hbef⟩
          have hsome : firstMarkerIdx ls = some n := by
            refine (ih n).mpr ⟨by simpa using hi, by simpa using hmark, ?_⟩
            intro j hj
            simpa using hbef (j + 1) (by omega)
          rw [hsome]; rfl

set_option maxHeartbeats 2000000 in
/-- Unfolding bridge: the character data of the preprocessed string is the
truncation step applied to the cleaned text. -/
theorem preprocessOcrText_data (s : String) :
    (preprocessOcrText s).data = levelTrunc (cleanedText s.data) := rfl

/-- C3: when the cleaned form of the input, split into lines, has its first
level-requirement marker line at index i, preprocessOcrText returns the
first min 3 i lines followed by all lines from index i on, joined by
newlines and trimmed; when no line carries a marker, it returns the cleaned
text unmodified. -/
theorem preprocessOcrText_level_rule (s : String) :
    (∀ i, i < (splitNl (cleanedText s.data)).length →
      isMarkerLine ((splitNl (cleanedText s.data)).getD i []) = true →
      (∀ j, j < i → isMarkerLine ((splitNl (cleanedText s.data)).getD j []) = false) →
      (preprocessOcrText s).data =
        jsTrim (joinNl
          ((splitNl (cleanedText s.data)).take (min 3 i) ++
            (splitNl (cleanedText s.data)).drop i))) ∧
    ((∀ l ∈ splitNl (cleanedText s.data), isMarkerLine l = false) →
      (preprocessOcrText s).data = cleanedText s.data) := by
  constructor
  · intro i hi hmark hbef
    have hidx : firstMarkerIdx (splitNl (cleanedText s.data)) = some i :=
      (firstMarkerIdx_some_iff _ i).mpr ⟨hi, hmark, hbef⟩
    rw [preprocessOcrText_data]
    simp only [levelTrunc, hidx]
  · intro hnone
    have hidx : firstMarkerIdx (splitNl (cleanedText s.data)) = none :=
      (firstMarkerIdx_none_iff _).mpr hnone
    rw [preprocessOcrText_data]
    simp only [levelTrunc, hidx]

theorem preprocessOcrText_level_rule_witness :
    isMarkerLine ((splitNl (cleanedText ("a\nRequires Level 9\nb").data)).getD 1 []) = true ∧
      (preprocessOcrText "a\nRequires Level 9\nb").data =
        jsTrim (joinNl
          ((splitNl (cleanedText ("a\nRequires Level 9\nb").data)).take (min 3 1) ++
            (splitNl (cleanedText ("a\nRequires Level 9\nb").data)).drop 1)) := by
  refine ⟨by decide, (preprocessOcrText_level_rule "a\nRequires Level 9\nb").1 1
    (by decide) (by decide) ?_⟩
  intro j hj
  have hj0 : j = 0 := by omega
  subst hj0
  decide

/-- C4: on the ETH-marked two-line input the whole pipeline is the
identity: the bracket substitutions keep the exact ETH marker in place and
nothing else changes. -/
theorem preprocessOcrText_eth_kept :
    preprocessOcrText "[ETH]无形之刃\n需要等级 30" = "[ETH]无形之刃\n需要等级 30" := by
  decide

/-- C5 counterexample: on the §8 numeric-tag input no line is treated as a
level-requirement marker line — the simplified-Chinese level line is not
among the three phrasings the code recognises, so the truncation rule of
§4.3 does not fire on this input, contrary to the claim. -/
theorem preprocessOcrText_numeric_tag_no_marker :
    firstMarkerIdx (splitNl (cleanedText
      ("力量+10[290ED/6/6/4]\n需要等级 25\n稀有度：魔法").data)) = none := by
  decide

/-- C5 (amended): the numeric tag is stripped and the claimed three-line
string is returned, but it is returned as the cleaned text unmodified: the
simplified-Chinese level line is not recognised as a level-requirement
marker, so the line-truncation rule does not fire. -/
theorem preprocessOcrText_numeric_tag :
    preprocessOcrText "力量+10[290ED/6/6/4]\n需要等级 25\n稀有度：魔法" =
      "力量+10\n需要等级 25\n稀有度：魔法" ∧
    isMarkerLine ("需要等级 25").data = false := by
  exact ⟨by decide, by decide⟩

/-! ## Idempotence of preprocessOcrText

The remainder of the development proves that running the whole pipeline a
second time changes nothing. The key invariants are position predicates on
the once-processed text: every opening square bracket is protected by the
ETH lookahead or unclosed, every opening corner bracket is unclosed, no
zhui character is followed by a colon, and no newline is reachable from a
newline through whitespace. Each substitution establishes its own
invariant and the later stages preserve the earlier ones. -/

/-- Position check: the predicate holds for every character of the list
together with the rest of the list after it. -/
def okAt (cond : Char → List Char → Bool) : List Char → Bool
  | [] => true
  | c :: r => cond c r && okAt cond r

/-- Safety of a position for the bracket substitution: an opening bracket
is immediately followed by the ETH lookahead text or never closed. -/
def brOk (c : Char) (r : List Char) : Bool :=
  if c == '[' then startsETHRB r || !(r.any (fun d => d == ']')) else true

/-- Safety of a position for the corner-bracket substitution. -/
def jpOk (c : Char) (r : List Char) : Bool :=
  if c == '『' then !(r.any (fun d => d == '』')) else true

/-- First character of a list is a colon. -/
def headColon : List Char → Bool
  | [] => false
  | d :: _ => isColon d

/-- Safety of a position for the zhui substitution: a zhui character is
not followed by a colon. -/
def zhOk (c : Char) (r : List Char) : Bool :=
  if c == '缀' then !(headColon r) else true

/-- The maximal whitespace prefix contains a newline. -/
def wsRunNl (z : List Char) : Bool :=
  (z.takeWhile isJsWs).any (fun d => d == '\n')

/-- Safety of a position for the blank-line collapse: no newline is
reachable from a newline through whitespace. -/
def nlOk (c : Char) (r : List Char) : Bool :=
  if c == '\n' then !(wsRunNl r) else true

/-- Every step function of the pipeline jumps to a shorter continuation. -/
def StepShrinks (step : Char → List Char → Option (List Char × List Char)) : Prop :=
  ∀ c r e r2, step c r = some (e, r2) → r2.length ≤ r.length

theorem okAt_iff (cond : Char → List Char → Bool) (x : List Char) :
    okAt cond x = true ↔ ∀ a c b, x = a ++ c :: b → cond c b = true := by
  induction x with
  | nil =>
    simp only [okAt, true_iff]
    intro a c b h
    exact absurd h (by simp)
  | cons y r ih =>
    simp only [okAt, Bool.and_eq_true]
    constructor
    · rintro ⟨hy, hr⟩ a c b h
      cases a with
      | nil =>
        simp only [List.nil_append, List.cons.injEq] at h
        rw [← h.1, ← h.2]
        exact hy
      | cons d a2 =>
        simp only [List.cons_append, List.cons.injEq] at h
        exact (ih.mp hr) a2 c b h.2
    · intro h
      refine ⟨h [] y r rfl, ih.mpr ?_⟩
      intro a c b hb
      exact h (y :: a) c b (by rw [hb]; rfl)

theorem okAt_suffix (cond : Char → List Char → Bool) (a b : List Char)
    (h : okAt cond (a ++ b) = true) : okAt cond b = true := by
  induction a with
  | nil => exact h
  | cons c a2 ih =>
    simp only [List.cons_append, okAt, Bool.and_eq_true] at h
    exact ih h.2

/-- Splitting an append at a distinguished element of the right-hand
shape. -/
theorem cons_split {α : Type} (u v a b : List α) (t : α)
    (h : u ++ v = a ++ t :: b) :
    (∃ w, u = a ++ t :: w ∧ b = w ++ v) ∨
      (∃ w, a = u ++ w ∧ v = w ++ t :: b) := by
  rcases List.append_eq_append_iff.mp h with ⟨a2, ha, hv⟩ | ⟨c2, hu, hd⟩
  · exact Or.inr ⟨a2, ha, hv⟩
  · cases c2 with
    | nil =>
      simp only [List.append_nil] at hu
      simp only [List.nil_append] at hd
      exact Or.inr ⟨[], by simp [hu], by simp [hd]⟩
    | cons t2 w =>
      simp only [List.cons_append, List.cons.injEq] at hd
      exact Or.inl ⟨w, by rw [hu, hd.1], hd.2⟩

theorem scan_fuel_irrel (step : Char → List Char → Option (List Char × List Char))
    (hs : StepShrinks step) :
    ∀ f g x, x.length ≤ f → x.length ≤ g → scanGo step f x = scanGo step g x := by
  intro f
  induction f with
  | zero =>
    intro g x hf _
    have hx : x = [] := List.length_eq_zero.mp (Nat.le_zero.mp hf)
    subst hx
    cases g <;> rfl
  | succ f ih =>
    intro g x hf hg
    cases x with
    | nil => cases g <;> rfl
    | cons c r =>
      simp only [List.length_cons] at hf hg
      cases g with
      | zero => omega
      | succ g2 =>
        simp only [scanGo]
        cases hstep : step c r with
        | none =>
          simp only [hstep]
          rw [ih g2 r (by omega) (by omega)]
        | some p =>
          obtain ⟨e, r2⟩ := p
          simp only [hstep]
          have hr2 := hs c r e r2 hstep
          rw [ih g2 r2 (by omega) (by omega)]

theorem scan_noop_of_okAt (cond : Char → List Char → Bool)
    (step : Char → List Char → Option (List Char × List Char))
    (himp : ∀ c r, cond c r = true → okAt cond r = true → step c r = none) :
    ∀ f x, x.length ≤ f → okAt cond x = true → scanGo step f x = x := by
  intro f
  induction f with
  | zero => intro x _ _; rfl
  | succ f ih =>
    intro x hf hok
    cases x with
    | nil => rfl
    | cons c r =>
      simp only [List.length_cons] at hf
      simp only [okAt, Bool.and_eq_true] at hok
      simp only [scanGo, himp c r hok.1 hok.2]
      rw [ih r (by omega) hok.2]

theorem scan_sublist (step : Char → List Char → Option (List Char × List Char))
    (hs : StepShrinks step)
    (hdel : ∀ c r e r2, step c r = some (e, r2) → (e ++ r2).Sublist (c :: r)) :
    ∀ f x, x.length ≤ f → (scanGo step f x).Sublist x := by
  intro f
  induction f with
  | zero => intro x _; exact List.Sublist.refl x
  | succ f ih =>
    intro x hf
    cases x with
    | nil => exact List.Sublist.refl []
    | cons c r =>
      simp only [List.length_cons] at hf
      simp only [scanGo]
      cases hstep : step c r with
      | none => exact List.Sublist.cons₂ c (ih r (by omega))
      | some p =>
        obtain ⟨e, r2⟩ := p
        have hr2 := hs c r e r2 hstep
        have h1 : (e ++ scanGo step f r2).Sublist (e ++ r2) :=
          List.Sublist.append_left (ih r2 (by omega)) e
        exact h1.trans (hdel c r e r2 hstep)

theorem scan_copy (step : Char → List Char → Option (List Char × List Char))
    (hs : StepShrinks step) :
    ∀ w r f, w.length + r.length ≤ f →
      (∀ a c b, w = a ++ c :: b → step c (b ++ r) = none) →
      scanGo step f (w ++ r) = w ++ scanGo step r.length r := by
  intro w
  induction w with
  | nil =>
    intro r f hf _
    simp only [List.nil_append]
    exact scan_fuel_irrel step hs f r.length r (by omega) (le_refl _)
  | cons c w2 ih =>
    intro r f hf hnone
    simp only [List.length_cons] at hf
    cases f with
    | zero => omega
    | succ f2 =>
      simp only [List.cons_append, scanGo, List.append_eq]
      rw [hnone [] c w2 rfl]
      rw [ih r f2 (by omega) (fun a d b hb => hnone (c :: a) d b (by rw [hb]; rfl))]

/-! ## Structure of the match helpers -/

theorem afterRB_spec : ∀ r r2, afterRB r = some r2 → ∃ w, r = w ++ ']' :: r2 := by
  intro r
  induction r with
  | nil => intro r2 h; exact absurd h (by simp [afterRB])
  | cons c r ih =>
    intro r2 h
    simp only [afterRB] at h
    by_cases hc : c = ']'
    · subst hc
      simp only [beq_self_eq_true, if_true, Option.some.injEq] at h
      exact ⟨[], by rw [h]; rfl⟩
    · rw [if_neg (by simpa using hc)] at h
      obtain ⟨w, hw⟩ := ih r2 h
      exact ⟨c :: w, by rw [hw]; rfl⟩

theorem afterRB_none (r : List Char)
    (h : r.any (fun d => d == ']') = false) : afterRB r = none := by
  induction r with
  | nil => rfl
  | cons c r ih =>
    simp only [List.any_cons, Bool.or_eq_false_iff] at h
    simp only [afterRB, h.1, if_false, Bool.false_eq_true]
    exact ih h.2

theorem afterJp_spec : ∀ r r2, afterJp r = some r2 → ∃ w, r = w ++ '』' :: r2 := by
  intro r
  induction r with
  | nil => intro r2 h; exact absurd h (by simp [afterJp])
  | cons c r ih =>
    intro r2 h
    simp only [afterJp] at h
    by_cases hc : c = '』'
    · subst hc
      simp only [beq_self_eq_true, if_true, Option.some.injEq] at h
      exact ⟨[], by rw [h]; rfl⟩
    · rw [if_neg (by simpa using hc)] at h
      obtain ⟨w, hw⟩ := ih r2 h
      exact ⟨c :: w, by rw [hw]; rfl⟩

theorem afterJp_none (r : List Char)
    (h : r.any (fun d => d == '』') = false) : afterJp r = none := by
  induction r with
  | nil => rfl
  | cons c r ih =>
    simp only [List.any_cons, Bool.or_eq_false_iff] at h
    simp only [afterJp, h.1, if_false, Bool.false_eq_true]
    exact ih h.2

theorem dropLine_spec : ∀ z, ∃ w, z = w ++ dropLine z ∧
    ∀ c ∈ w, isLineTerm c = false := by
  intro z
  induction z with
  | nil => exact ⟨[], rfl, by simp⟩
  | cons c r ih =>
    by_cases hc : isLineTerm c = true
    · exact ⟨[], by simp [dropLine, hc], by simp⟩
    · obtain ⟨w, hw, hall⟩ := ih
      refine ⟨c :: w, ?_, ?_⟩
      · simp only [dropLine, hc, if_false, Bool.false_eq_true]
        rw [List.cons_append, ← hw]
      · intro d hd
        rcases List.mem_cons.mp hd with hd | hd
        · subst hd; simpa using hc
        · exact hall d hd

theorem dropLine_head : ∀ z d t, dropLine z = d :: t → isLineTerm d = true := by
  intro z
  induction z with
  | nil => intro d t h; exact absurd h (by simp [dropLine])
  | cons c r ih =>
    intro d t h
    by_cases hc : isLineTerm c = true
    · simp only [dropLine, hc, if_true, List.cons.injEq] at h
      rw [← h.1]; exact hc
    · simp only [dropLine, hc, if_false, Bool.false_eq_true] at h
      exact ih d t h

theorem lastNlSplit_spec : ∀ r r2, lastNlSplit r = some r2 →
    ∃ w, r = w ++ '\n' :: r2 ∧ ∀ c ∈ w, isJsWs c = true := by
  intro r
  induction r with
  | nil => intro r2 h; exact absurd h (by simp [lastNlSplit])
  | cons c r ih =>
    intro r2 h
    simp only [lastNlSplit] at h
    by_cases hws : isJsWs c = true
    · rw [if_pos hws] at h
      cases hh : lastNlSplit r with
      | some r3 =>
        rw [hh] at h
        simp only [Option.some.injEq] at h
        subst h
        obtain ⟨w, hw, hall⟩ := ih r3 hh
        refine ⟨c :: w, by rw [hw]; rfl, ?_⟩
        intro d hd
        rcases List.mem_cons.mp hd with hd | hd
        · subst hd; exact hws
        · exact hall d hd
      | none =>
        rw [hh] at h
        by_cases hc : c = '\n'
        · subst hc
          simp only [beq_self_eq_true, if_true, Option.some.injEq] at h
          subst h
          exact ⟨[], rfl, by simp⟩
        · rw [if_neg (by simpa using hc)] at h
          exact absurd h (by simp)
    · rw [if_neg hws] at h
      exact absurd h (by simp)

theorem lastNlSplit_none : ∀ r, lastNlSplit r = none → wsRunNl r = false := by
  intro r
  induction r with
  | nil => intro _; rfl
  | cons c r ih =>
    intro h
    simp only [lastNlSplit] at h
    by_cases hws : isJsWs c = true
    · rw [if_pos hws] at h
      cases hh : lastNlSplit r with
      | some r3 => rw [hh] at h; exact absurd h (by simp)
      | none =>
        rw [hh] at h
        by_cases hc : c = '\n'
        · subst hc; simp at h
        · simp only [wsRunNl, List.takeWhile_cons, hws, if_true, List.any_cons,
            Bool.or_eq_false_iff]
          exact ⟨by simpa using hc, ih hh⟩
    · rw [if_neg hws] at h
      simp only [wsRunNl, List.takeWhile_cons, hws]
      rfl

theorem lastNlSplit_none_of : ∀ r, wsRunNl r = false → lastNlSplit r = none := by
  intro r
  induction r with
  | nil => intro _; rfl
  | cons c r ih =>
    intro h
    by_cases hws : isJsWs c = true
    · simp only [wsRunNl, List.takeWhile_cons, hws, if_true, List.any_cons,
        Bool.or_eq_false_iff] at h
      simp only [lastNlSplit, hws, if_true, ih h.2, h.1, if_false, Bool.false_eq_true]
    · simp [lastNlSplit, hws]

theorem lastNlSplit_tail : ∀ r r2, lastNlSplit r = some r2 → wsRunNl r2 = false := by
  intro r
  induction r with
  | nil => intro r2 h; exact absurd h (by simp [lastNlSplit])
  | cons c r ih =>
    intro r2 h
    simp only [lastNlSplit] at h
    by_cases hws : isJsWs c = true
    · rw [if_pos hws] at h
      cases hh : lastNlSplit r with
      | some r3 =>
        rw [hh] at h
        simp only [Option.some.injEq] at h
        subst h
        exact ih r3 hh
      | none =>
        rw [hh] at h
        by_cases hc : c = '\n'
        · subst hc
          simp only [beq_self_eq_true, if_true, Option.some.injEq] at h
          subst h
          exact lastNlSplit_none r hh
        · rw [if_neg (by simpa using hc)] at h
          exact absurd h (by simp)
    · rw [if_neg hws] at h
      exact absurd h (by simp)

theorem startsETH_decomp (r : List Char) (h : startsETHRB r = true) :
    ∃ r4, r = 'E' :: 'T' :: 'H' :: ']' :: r4 := by
  match r with
  | [] => exact absurd h (by simp [startsETHRB])
  | [a] => exact absurd h (by simp [startsETHRB])
  | [a, b] => exact absurd h (by simp [startsETHRB])
  | [a, b, c] => exact absurd h (by simp [startsETHRB])
  | a :: b :: c :: d :: r4 =>
    simp only [startsETHRB, Bool.and_eq_true, beq_iff_eq] at h
    obtain ⟨⟨⟨ha, hb⟩, hc⟩, hd⟩ := h
    exact ⟨r4, by rw [ha, hb, hc, hd]⟩

theorem startsETH_shape (z : List Char) :
    startsETHRB ('E' :: 'T' :: 'H' :: ']' :: z) = true := by
  simp [startsETHRB]

theorem dropLine_len (z : List Char) : (dropLine z).length ≤ z.length := by
  induction z with
  | nil => exact Nat.le_refl 0
  | cons c r ih =>
    by_cases hc : isLineTerm c = true
    · simp [dropLine, hc]
    · simp only [dropLine, hc, if_false, Bool.false_eq_true, List.length_cons]
      omega

theorem dropLine_sublist (z : List Char) : (dropLine z).Sublist z := by
  obtain ⟨w, hw, _⟩ := dropLine_spec z
  have h := List.sublist_append_right w (dropLine z)
  rw [← hw] at h
  exact h

theorem numTail_rb (r r2 : List Char) (h : numTail r = some r2) :
    (']' : Char) ∈ r := by
  simp only [numTail] at h
  by_cases h1 : (r.takeWhile (fun c => c.isDigit)).isEmpty = true
  · rw [if_pos h1] at h
    exact absurd h (by simp)
  · rw [if_neg h1] at h
    cases hl1 : r.dropWhile (fun c => c.isDigit) with
    | nil => rw [hl1] at h; exact absurd h (by simp)
    | cons a t1 =>
      cases t1 with
      | nil => rw [hl1] at h; exact absurd h (by simp)
      | cons b t2 =>
        cases t2 with
        | nil => rw [hl1] at h; exact absurd h (by simp)
        | cons c l2 =>
          rw [hl1] at h
          simp only at h
          by_cases h2 : (a == 'E' && b == 'D' && c == '/') = true
          · rw [if_pos h2] at h
            by_cases h3 : (l2.takeWhile (fun c => c.isDigit || c == '/')).isEmpty = true
            · rw [if_pos h3] at h
              exact absurd h (by simp)
            · rw [if_neg h3] at h
              cases hl3 : l2.dropWhile (fun c => c.isDigit || c == '/') with
              | nil => rw [hl3] at h; exact absurd h (by simp)
              | cons d l4 =>
                rw [hl3] at h
                simp only at h
                by_cases h4 : (d == ']') = true
                · have hd : d = ']' := by simpa using h4
                  subst hd
                  have m1 : (']' : Char) ∈ l2.dropWhile (fun c => c.isDigit || c == '/') := by
                    rw [hl3]; exact List.mem_cons_self _ _
                  have m2 : (']' : Char) ∈ l2 :=
                    (List.dropWhile_sublist _).subset m1
                  have m3 : (']' : Char) ∈ r.dropWhile (fun c => c.isDigit) := by
                    rw [hl1]
                    exact List.mem_cons_of_mem a (List.mem_cons_of_mem b
                      (List.mem_cons_of_mem c m2))
                  exact (List.dropWhile_sublist _).subset m3
                · rw [if_neg h4] at h
                  exact absurd h (by simp)
          · rw [if_neg h2] at h
            exact absurd h (by simp)

theorem numTail_eth (r : List Char) (h : startsETHRB r = true) :
    numTail r = none := by
  obtain ⟨r4, hr⟩ := startsETH_decomp r h
  subst hr
  simp [numTail, List.takeWhile_cons, Char.isDigit]

/-! ## Pointwise safety makes each step fail to match -/

theorem brStep_none_of_ok (c : Char) (r : List Char) (h : brOk c r = true) :
    brStep c r = none := by
  unfold brStep
  unfold brOk at h
  by_cases hc : (c == '[') = true
  · rw [if_pos hc] at h ⊢
    by_cases he : startsETHRB r = true
    · rw [if_pos he]
    · rw [if_neg he]
      simp only [he, Bool.false_or] at h
      rw [afterRB_none r (by simpa using h)]
      rfl
  · rw [if_neg hc]

theorem numStep_none_of_ok (c : Char) (r : List Char) (h : brOk c r = true) :
    numStep c r = none := by
  unfold numStep
  unfold brOk at h
  by_cases hc : (c == '[') = true
  · rw [if_pos hc] at h ⊢
    by_cases he : startsETHRB r = true
    · rw [numTail_eth r he]; rfl
    · simp only [he, Bool.false_or] at h
      cases hn : numTail r with
      | none => rfl
      | some r2 =>
        have hm := numTail_rb r r2 hn
        have hfalse : (r.any fun d => d == ']') = false := by
          cases hany : (r.any fun d => d == ']') with
          | false => rfl
          | true => rw [hany] at h; simp at h
        have h2 := List.any_eq_false.mp hfalse ']' hm
        simp at h2
  · rw [if_neg hc]

theorem jpStep_none_of_ok (c : Char) (r : List Char) (h : jpOk c r = true) :
    jpStep c r = none := by
  unfold jpStep
  unfold jpOk at h
  by_cases hc : (c == '『') = true
  · rw [if_pos hc] at h ⊢
    rw [afterJp_none r (by simpa using h)]
    rfl
  · rw [if_neg hc]

theorem zhStep_none_of_ok (c : Char) (r : List Char) (h : zhOk c r = true) :
    zhStep c r = none := by
  unfold zhStep
  unfold zhOk at h
  by_cases hc : (c == '缀') = true
  · rw [if_pos hc] at h ⊢
    cases r with
    | nil => rfl
    | cons c2 r2 =>
      simp only [headColon] at h
      show (if isColon c2 = true then some (([] : List Char), dropLine r2) else none) = none
      rw [if_neg (by simpa using h)]
  · rw [if_neg hc]

theorem qzStep_none_of_ok (c : Char) (r : List Char) (_ : zhOk c r = true)
    (hr : okAt zhOk r = true) : qzStep c r = none := by
  unfold qzStep
  by_cases hc : (c == '前') = true
  · rw [if_pos hc]
    cases r with
    | nil => rfl
    | cons c2 t =>
      cases t with
      | nil => rfl
      | cons c3 r3 =>
        show (if (c2 == '缀' && isColon c3) = true then some (([] : List Char), dropLine r3) else none) = none
        simp only [okAt, Bool.and_eq_true] at hr
        by_cases h2 : (c2 == '缀' && isColon c3) = true
        · exfalso
          simp only [Bool.and_eq_true, beq_iff_eq] at h2
          have hz := hr.1
          rw [h2.1] at hz
          simp only [zhOk, beq_self_eq_true, if_true, headColon, h2.2] at hz
          exact absurd hz (by simp)
        · rw [if_neg h2]
  · rw [if_neg hc]

theorem nlStep_none_of_ok (c : Char) (r : List Char) (h : nlOk c r = true) :
    nlStep c r = none := by
  unfold nlStep
  unfold nlOk at h
  by_cases hc : (c == '\n') = true
  · rw [if_pos hc] at h ⊢
    rw [lastNlSplit_none_of r (by simpa using h)]
    rfl
  · rw [if_neg hc]

/-! ## Shrink, deletion and jump facts for the step functions -/

theorem brStep_some (c : Char) (r e r2 : List Char)
    (h : brStep c r = some (e, r2)) :
    c = '[' ∧ e = [] ∧ ∃ w, r = w ++ ']' :: r2 := by
  unfold brStep at h
  by_cases hc : (c == '[') = true
  · rw [if_pos hc] at h
    by_cases he : startsETHRB r = true
    · rw [if_pos he] at h; exact absurd h (by simp)
    · rw [if_neg he] at h
      cases ha : afterRB r with
      | none => rw [ha] at h; exact absurd h (by simp)
      | some r3 =>
        rw [ha] at h
        simp only [Option.map_some', Option.some.injEq, Prod.mk.injEq] at h
        obtain ⟨he2, hr2⟩ := h
        refine ⟨by simpa using hc, he2.symm, ?_⟩
        rw [← hr2]
        exact afterRB_spec r r3 ha
  · rw [if_neg hc] at h; exact absurd h (by simp)

theorem jpStep_some (c : Char) (r e r2 : List Char)
    (h : jpStep c r = some (e, r2)) :
    c = '『' ∧ e = [] ∧ ∃ w, r = w ++ '』' :: r2 := by
  unfold jpStep at h
  by_cases hc : (c == '『') = true
  · rw [if_pos hc] at h
    cases ha : afterJp r with
    | none => rw [ha] at h; exact absurd h (by simp)
    | some r3 =>
      rw [ha] at h
      simp only [Option.map_some', Option.some.injEq, Prod.mk.injEq] at h
      obtain ⟨he2, hr2⟩ := h
      refine ⟨by simpa using hc, he2.symm, ?_⟩
      rw [← hr2]
      exact afterJp_spec r r3 ha
  · rw [if_neg hc] at h; exact absurd h (by simp)

theorem zhStep_some (c : Char) (r e r2 : List Char)
    (h : zhStep c r = some (e, r2)) :
    c = '缀' ∧ e = [] ∧ ∃ c2 r3, r = c2 :: r3 ∧ isColon c2 = true ∧
      r2 = dropLine r3 := by
  unfold zhStep at h
  by_cases hc : (c == '缀') = true
  · rw [if_pos hc] at h
    cases r with
    | nil => exact absurd h (by simp)
    | cons c2 r3 =>
      have h2 : (if isColon c2 = true then some (([] : List Char), dropLine r3) else none) = some (e, r2) := h
      by_cases hcol : isColon c2 = true
      · rw [if_pos hcol] at h2
        simp only [Option.some.injEq, Prod.mk.injEq] at h2
        exact ⟨by simpa using hc, h2.1.symm, c2, r3, rfl, hcol, h2.2.symm⟩
      · rw [if_neg hcol] at h2; exact absurd h2 (by simp)
  · rw [if_neg hc] at h; exact absurd h (by simp)

theorem nlStep_some (c : Char) (r e r2 : List Char)
    (h : nlStep c r = some (e, r2)) :
    c = '\n' ∧ e = ['\n'] ∧ lastNlSplit r = some r2 := by
  unfold nlStep at h
  by_cases hc : (c == '\n') = true
  · rw [if_pos hc] at h
    cases ha : lastNlSplit r with
    | none => rw [ha] at h; exact absurd h (by simp)
    | some r3 =>
      rw [ha] at h
      simp only [Option.map_some', Option.some.injEq, Prod.mk.injEq] at h
      obtain ⟨he2, hr2⟩ := h
      refine ⟨by simpa using hc, he2.symm, ?_⟩
      rw [hr2]
  · rw [if_neg hc] at h; exact absurd h (by simp)

theorem brStep_shrinks : StepShrinks brStep := by
  intro c r e r2 h
  obtain ⟨_, _, w, hw⟩ := brStep_some c r e r2 h
  rw [hw]
  simp only [List.length_append, List.length_cons]
  omega

theorem jpStep_shrinks : StepShrinks jpStep := by
  intro c r e r2 h
  obtain ⟨_, _, w, hw⟩ := jpStep_some c r e r2 h
  rw [hw]
  simp only [List.length_append, List.length_cons]
  omega

theorem zhStep_shrinks : StepShrinks zhStep := by
  intro c r e r2 h
  obtain ⟨_, _, c2, r3, hr, _, hr2⟩ := zhStep_some c r e r2 h
  rw [hr2]
  have := dropLine_len r3
  rw [hr]
  simp only [List.length_cons]
  omega

theorem nlStep_shrinks : StepShrinks nlStep := by
  intro c r e r2 h
  obtain ⟨_, _, ha⟩ := nlStep_some c r e r2 h
  obtain ⟨w, hw, _⟩ := lastNlSplit_spec r r2 ha
  rw [hw]
  simp only [List.length_append, List.length_cons]
  omega

theorem brStep_jump (c : Char) (r e r2 : List Char)
    (h : brStep c r = some (e, r2)) : ∃ w, r = w ++ r2 := by
  obtain ⟨_, _, w, hw⟩ := brStep_some c r e r2 h
  exact ⟨w ++ [']'], by rw [hw]; simp⟩

theorem jpStep_jump (c : Char) (r e r2 : List Char)
    (h : jpStep c r = some (e, r2)) : ∃ w, r = w ++ r2 := by
  obtain ⟨_, _, w, hw⟩ := jpStep_some c r e r2 h
  exact ⟨w ++ ['』'], by rw [hw]; simp⟩

theorem zhStep_jump (c : Char) (r e r2 : List Char)
    (h : zhStep c r = some (e, r2)) : ∃ w, r = w ++ r2 := by
  obtain ⟨_, _, c2, r3, hr, _, hr2⟩ := zhStep_some c r e r2 h
  obtain ⟨w, hw, _⟩ := dropLine_spec r3
  refine ⟨c2 :: w, ?_⟩
  rw [hr, hr2]
  rw [List.cons_append]
  exact congrArg (c2 :: ·) hw

theorem nlStep_jump (c : Char) (r e r2 : List Char)
    (h : nlStep c r = some (e, r2)) : ∃ w, r = w ++ r2 := by
  obtain ⟨_, _, ha⟩ := nlStep_some c r e r2 h
  obtain ⟨w, hw, _⟩ := lastNlSplit_spec r r2 ha
  exact ⟨w ++ ['\n'], by rw [hw]; simp⟩

theorem brStep_del (c : Char) (r e r2 : List Char)
    (h : brStep c r = some (e, r2)) : (e ++ r2).Sublist (c :: r) := by
  obtain ⟨_, he, w, hw⟩ := brStep_some c r e r2 h
  subst he
  rw [hw]
  simp only [List.nil_append]
  exact ((List.sublist_cons_self ']' r2).trans
    (List.sublist_append_right w (']' :: r2))).trans
    (List.sublist_cons_self c (w ++ ']' :: r2))

theorem jpStep_del (c : Char) (r e r2 : List Char)
    (h : jpStep c r = some (e, r2)) : (e ++ r2).Sublist (c :: r) := by
  obtain ⟨_, he, w, hw⟩ := jpStep_some c r e r2 h
  subst he
  rw [hw]
  simp only [List.nil_append]
  exact ((List.sublist_cons_self '』' r2).trans
    (List.sublist_append_right w ('』' :: r2))).trans
    (List.sublist_cons_self c (w ++ '』' :: r2))

theorem zhStep_del (c : Char) (r e r2 : List Char)
    (h : zhStep c r = some (e, r2)) : (e ++ r2).Sublist (c :: r) := by
  obtain ⟨_, he, c2, r3, hr, _, hr2⟩ := zhStep_some c r e r2 h
  subst he
  rw [hr, hr2]
  simp only [List.nil_append]
  exact ((dropLine_sublist r3).trans (List.sublist_cons_self c2 r3)).trans
    (List.sublist_cons_self c (c2 :: r3))

theorem nlStep_del (c : Char) (r e r2 : List Char)
    (h : nlStep c r = some (e, r2)) : (e ++ r2).Sublist (c :: r) := by
  obtain ⟨hc, he, ha⟩ := nlStep_some c r e r2 h
  subst hc; subst he
  obtain ⟨w, hw, _⟩ := lastNlSplit_spec r r2 ha
  rw [hw]
  simp only [List.singleton_append]
  exact List.Sublist.cons₂ '\n'
    ((List.sublist_cons_self '\n' r2).trans (List.sublist_append_right w ('\n' :: r2)))

/-! ## Generic preservation shell and copy helpers -/

theorem afterRB_none_mem (r : List Char) (h : afterRB r = none) :
    ∀ d ∈ r, (d == ']') = false := by
  induction r with
  | nil => intro d hd; exact absurd hd (by simp)
  | cons c t ih =>
    intro d hd
    simp only [afterRB] at h
    by_cases hc : (c == ']') = true
    · rw [if_pos hc] at h; exact absurd h (by simp)
    · rw [if_neg hc] at h
      rcases List.mem_cons.mp hd with hd | hd
      · subst hd; simpa using hc
      · exact ih h d hd

theorem afterJp_none_mem (r : List Char) (h : afterJp r = none) :
    ∀ d ∈ r, (d == '』') = false := by
  induction r with
  | nil => intro d hd; exact absurd hd (by simp)
  | cons c t ih =>
    intro d hd
    simp only [afterJp] at h
    by_cases hc : (c == '』') = true
    · rw [if_pos hc] at h; exact absurd h (by simp)
    · rw [if_neg hc] at h
      rcases List.mem_cons.mp hd with hd | hd
      · subst hd; simpa using hc
      · exact ih h d hd

theorem brStep_none_of_ne (c : Char) (r : List Char) (h : (c == '[') = false) :
    brStep c r = none := by
  unfold brStep
  rw [if_neg (by simp [h])]

theorem jpStep_none_of_ne (c : Char) (r : List Char) (h : (c == '『') = false) :
    jpStep c r = none := by
  unfold jpStep
  rw [if_neg (by simp [h])]

theorem zhStep_none_of_ne (c : Char) (r : List Char) (h : (c == '缀') = false) :
    zhStep c r = none := by
  unfold zhStep
  rw [if_neg (by simp [h])]

theorem nlStep_none_of_ne (c : Char) (r : List Char) (h : (c == '\n') = false) :
    nlStep c r = none := by
  unfold nlStep
  rw [if_neg (by simp [h])]

theorem lineTerm_not_colon (d : Char) (h : isLineTerm d = true) :
    isColon d = false := by
  simp only [isLineTerm, Bool.or_eq_true, beq_iff_eq] at h
  rcases h with ((h | h) | h) | h <;> subst h <;> decide

theorem scan_preserve (cond : Char → List Char → Bool)
    (step : Char → List Char → Option (List Char × List Char))
    (hs : StepShrinks step)
    (hjump : ∀ c r e r2, step c r = some (e, r2) → ∃ w, r = w ++ r2)
    (hcopy : ∀ c r f, r.length ≤ f → step c r = none → cond c r = true →
      okAt cond r = true → cond c (scanGo step f r) = true)
    (hemit : ∀ c r e r2 f, step c r = some (e, r2) → r2.length ≤ f →
      okAt cond (scanGo step f r2) = true →
      okAt cond (e ++ scanGo step f r2) = true) :
    ∀ f x, x.length ≤ f → okAt cond x = true → okAt cond (scanGo step f x) = true := by
  intro f
  induction f with
  | zero => intro x _ hok; exact hok
  | succ f ih =>
    intro x hf hok
    cases x with
    | nil => exact hok
    | cons c r =>
      simp only [List.length_cons] at hf
      simp only [okAt, Bool.and_eq_true] at hok
      cases hstep : step c r with
      | none =>
        simp only [scanGo, hstep, okAt, Bool.and_eq_true]
        exact ⟨hcopy c r f (by omega) hstep hok.1 hok.2, ih r (by omega) hok.2⟩
      | some p =>
        obtain ⟨e, r2⟩ := p
        simp only [scanGo, hstep]
        obtain ⟨w, hw⟩ := hjump c r e r2 hstep
        have hok2 : okAt cond r2 = true :=
          okAt_suffix cond w r2 (by rw [← hw]; exact hok.2)
        have hr2 := hs c r e r2 hstep
        exact hemit c r e r2 f hstep (by omega) (ih r2 (by omega) hok2)

/-- Copying the four ETH-close characters through any scanner whose step
never fires on them. -/
theorem scan_eth_head (step : Char → List Char → Option (List Char × List Char))
    (hs : StepShrinks step)
    (hchars : ∀ c r, c ∈ (['E', 'T', 'H', ']'] : List Char) → step c r = none) :
    ∀ f r4, 4 + r4.length ≤ f →
      scanGo step f ('E' :: 'T' :: 'H' :: ']' :: r4) =
        'E' :: 'T' :: 'H' :: ']' :: scanGo step r4.length r4 := by
  intro f r4 hf
  have h := scan_copy step hs ['E', 'T', 'H', ']'] r4 f (by simpa using hf) ?_
  · simpa using h
  · intro a c b hab
    have hc : c ∈ (['E', 'T', 'H', ']'] : List Char) := by
      rw [hab]
      exact List.mem_append.mpr (Or.inr (List.mem_cons_self c b))
    exact hchars c (b ++ r4) hc

/-- Safety of a bracket position survives any scanner that only deletes,
never fires on the four ETH-close characters, and shrinks. -/
theorem brOk_copy (step : Char → List Char → Option (List Char × List Char))
    (hs : StepShrinks step)
    (hchars : ∀ c r, c ∈ (['E', 'T', 'H', ']'] : List Char) → step c r = none)
    (hdel : ∀ c r e r2, step c r = some (e, r2) → (e ++ r2).Sublist (c :: r)) :
    ∀ c r f, r.length ≤ f → brOk c r = true → brOk c (scanGo step f r) = true := by
  intro c r f hf h
  unfold brOk at h ⊢
  by_cases hc : (c == '[') = true
  · rw [if_pos hc] at h ⊢
    by_cases he : startsETHRB r = true
    · obtain ⟨r4, hr⟩ := startsETH_decomp r he
      subst hr
      simp only [List.length_cons] at hf
      rw [scan_eth_head step hs hchars f r4 (by omega)]
      rw [startsETH_shape]
      rfl
    · simp only [he, Bool.false_or] at h
      have hany : (r.any fun d => d == ']') = false := by simpa using h
      have hsub : (scanGo step f r).Sublist r := scan_sublist step hs hdel f r hf
      have hout : ((scanGo step f r).any fun d => d == ']') = false := by
        rw [List.any_eq_false]
        intro d hd
        exact (by simpa using List.any_eq_false.mp hany d (hsub.subset hd) :
          (d == ']') = false) ▸ (by simp [List.any_eq_false.mp hany d (hsub.subset hd)])
      rw [hout]
      simp
  · rw [if_neg hc]

/-- Safety of a corner-bracket position survives any deleting scanner. -/
theorem jpOk_copy (step : Char → List Char → Option (List Char × List Char))
    (hs : StepShrinks step)
    (hdel : ∀ c r e r2, step c r = some (e, r2) → (e ++ r2).Sublist (c :: r)) :
    ∀ c r f, r.length ≤ f → jpOk c r = true → jpOk c (scanGo step f r) = true := by
  intro c r f hf h
  unfold jpOk at h ⊢
  by_cases hc : (c == '『') = true
  · rw [if_pos hc] at h ⊢
    have hany : (r.any fun d => d == '』') = false := by simpa using h
    have hsub : (scanGo step f r).Sublist r := scan_sublist step hs hdel f r hf
    have hout : ((scanGo step f r).any fun d => d == '』') = false := by
      rw [List.any_eq_false]
      intro d hd
      simpa using List.any_eq_false.mp hany d (hsub.subset hd)
    rw [hout]
    rfl
  · rw [if_neg hc]

theorem eth_chars_ne_br : ∀ c r, c ∈ (['E', 'T', 'H', ']'] : List Char) →
    brStep c r = none := by
  intro c r hc
  simp only [List.mem_cons, List.mem_singleton] at hc
  refine brStep_none_of_ne c r ?_
  rcases hc with h | h | h | (h | h) <;> first | (subst h; decide) | exact absurd h (by simp)

theorem eth_chars_ne_jp : ∀ c r, c ∈ (['E', 'T', 'H', ']'] : List Char) →
    jpStep c r = none := by
  intro c r hc
  simp only [List.mem_cons, List.mem_singleton] at hc
  refine jpStep_none_of_ne c r ?_
  rcases hc with h | h | h | (h | h) <;> first | (subst h; decide) | exact absurd h (by simp)

theorem eth_chars_ne_zh : ∀ c r, c ∈ (['E', 'T', 'H', ']'] : List Char) →
    zhStep c r = none := by
  intro c r hc
  simp only [List.mem_cons, List.mem_singleton] at hc
  refine zhStep_none_of_ne c r ?_
  rcases hc with h | h | h | (h | h) <;> first | (subst h; decide) | exact absurd h (by simp)

theorem eth_chars_ne_nl : ∀ c r, c ∈ (['E', 'T', 'H', ']'] : List Char) →
    nlStep c r = none := by
  intro c r hc
  simp only [List.mem_cons, List.mem_singleton] at hc
  refine nlStep_none_of_ne c r ?_
  rcases hc with h | h | h | (h | h) <;> first | (subst h; decide) | exact absurd h (by simp)

/-- The blank-line collapse preserves the head character of a nonempty
list: a non-matching head is copied and a matching head is the emitted
newline itself. -/
theorem nl_out_cons (f : Nat) (y : Char) (t : List Char) :
    ∃ t2, scanGo nlStep f (y :: t) = y :: t2 := by
  cases f with
  | zero => exact ⟨t, rfl⟩
  | succ f =>
    cases hstep : nlStep y t with
    | none => exact ⟨scanGo nlStep f t, by simp [scanGo, hstep]⟩
    | some p =>
      obtain ⟨e, r2⟩ := p
      obtain ⟨hy, he, _⟩ := nlStep_some y t e r2 hstep
      subst hy; subst he
      exact ⟨scanGo nlStep f r2, by simp [scanGo, hstep]⟩

theorem zhOk_copy_nl : ∀ c r f, r.length ≤ f → zhOk c r = true →
    zhOk c (scanGo nlStep f r) = true := by
  intro c r f hf h
  unfold zhOk at h ⊢
  by_cases hc : (c == '缀') = true
  · rw [if_pos hc] at h ⊢
    cases r with
    | nil => cases f <;> simpa using h
    | cons y t =>
      obtain ⟨t2, ht⟩ := nl_out_cons f y t
      rw [ht]
      simpa only [headColon] using h
  · rw [if_neg hc]

/-- A colon-free head survives the zhui scanner: a copied head is
unchanged and a match resumes at a line terminator, which is not a
colon. -/
theorem zh_out_head : ∀ f z, z.length ≤ f → headColon z = false →
    headColon (scanGo zhStep f z) = false := by
  intro f
  induction f with
  | zero => intro z _ h; exact h
  | succ f ih =>
    intro z hf h
    cases z with
    | nil => exact h
    | cons y t =>
      simp only [List.length_cons] at hf
      cases hstep : zhStep y t with
      | none =>
        simp only [scanGo, hstep]
        simpa only [headColon] using h
      | some p =>
        obtain ⟨e, r2⟩ := p
        obtain ⟨hy, he, c2, r3, hr, hcol, hr2⟩ := zhStep_some y t e r2 hstep
        simp only [scanGo, hstep]
        subst he
        simp only [List.nil_append]
        have hhc : headColon r2 = false := by
          cases hdl : r2 with
          | nil => rfl
          | cons d t3 =>
            have hdl2 : dropLine r3 = d :: t3 := by rw [← hr2]; exact hdl
            have hlt := dropLine_head r3 d t3 hdl2
            simp only [headColon]
            exact lineTerm_not_colon d hlt
        have hsh := zhStep_shrinks y t [] r2 hstep
        exact ih r2 (by omega) hhc

/-- A newline-free whitespace prefix survives the blank-line collapse. -/
theorem nl_out_run : ∀ f z, z.length ≤ f → wsRunNl z = false →
    wsRunNl (scanGo nlStep f z) = false := by
  intro f
  induction f with
  | zero => intro z _ h; exact h
  | succ f ih =>
    intro z hf h
    cases z with
    | nil => exact h
    | cons y t =>
      simp only [List.length_cons] at hf
      by_cases hws : isJsWs y = true
      · have hpair : (y == '\n') = false ∧ wsRunNl t = false := by
          simp only [wsRunNl, List.takeWhile_cons, hws, if_true, List.any_cons,
            Bool.or_eq_false_iff] at h
          exact h
        have hstep := nlStep_none_of_ne y t hpair.1
        simp only [scanGo, hstep]
        simp only [wsRunNl, List.takeWhile_cons, hws, if_true, List.any_cons,
          Bool.or_eq_false_iff]
        exact ⟨hpair.1, ih t (by omega) hpair.2⟩
      · have hy : (y == '\n') = false := by
          by_cases h2 : y = '\n'
          · subst h2; exact absurd (by decide : isJsWs '\n' = true) hws
          · simpa using h2
        have hstep := nlStep_none_of_ne y t hy
        simp only [scanGo, hstep]
        simp only [wsRunNl, List.takeWhile_cons, hws, if_false, Bool.false_eq_true,
          List.any_nil]

/-! ## Each invariant is preserved by the later scanners -/

theorem pres_br_jp : ∀ f x, x.length ≤ f → okAt brOk x = true →
    okAt brOk (scanGo jpStep f x) = true :=
  scan_preserve brOk jpStep jpStep_shrinks jpStep_jump
    (fun c r f hf _ h _ => brOk_copy jpStep jpStep_shrinks eth_chars_ne_jp
      jpStep_del c r f hf h)
    (fun c r e r2 f hstep _ hok => by
      obtain ⟨_, he, _⟩ := jpStep_some c r e r2 hstep
      subst he
      simpa using hok)

theorem pres_br_zh : ∀ f x, x.length ≤ f → okAt brOk x = true →
    okAt brOk (scanGo zhStep f x) = true :=
  scan_preserve brOk zhStep zhStep_shrinks zhStep_jump
    (fun c r f hf _ h _ => brOk_copy zhStep zhStep_shrinks eth_chars_ne_zh
      zhStep_del c r f hf h)
    (fun c r e r2 f hstep _ hok => by
      obtain ⟨_, he, _⟩ := zhStep_some c r e r2 hstep
      subst he
      simpa using hok)

theorem pres_br_nl : ∀ f x, x.length ≤ f → okAt brOk x = true →
    okAt brOk (scanGo nlStep f x) = true :=
  scan_preserve brOk nlStep nlStep_shrinks nlStep_jump
    (fun c r f hf _ h _ => brOk_copy nlStep nlStep_shrinks eth_chars_ne_nl
      nlStep_del c r f hf h)
    (fun c r e r2 f hstep _ hok => by
      obtain ⟨_, he, _⟩ := nlStep_some c r e r2 hstep
      subst he
      simp only [List.singleton_append, okAt, Bool.and_eq_true]
      refine ⟨?_, hok⟩
      unfold brOk
      rw [if_neg (by decide)])

theorem pres_jp_zh : ∀ f x, x.length ≤ f → okAt jpOk x = true →
    okAt jpOk (scanGo zhStep f x) = true :=
  scan_preserve jpOk zhStep zhStep_shrinks zhStep_jump
    (fun c r f hf _ h _ => jpOk_copy zhStep zhStep_shrinks zhStep_del c r f hf h)
    (fun c r e r2 f hstep _ hok => by
      obtain ⟨_, he, _⟩ := zhStep_some c r e r2 hstep
      subst he
      simpa using hok)

theorem pres_jp_nl : ∀ f x, x.length ≤ f → okAt jpOk x = true →
    okAt jpOk (scanGo nlStep f x) = true :=
  scan_preserve jpOk nlStep nlStep_shrinks nlStep_jump
    (fun c r f hf _ h _ => jpOk_copy nlStep nlStep_shrinks nlStep_del c r f hf h)
    (fun c r e r2 f hstep _ hok => by
      obtain ⟨_, he, _⟩ := nlStep_some c r e r2 hstep
      subst he
      simp only [List.singleton_append, okAt, Bool.and_eq_true]
      refine ⟨?_, hok⟩
      unfold jpOk
      rw [if_neg (by decide)])

theorem pres_zh_nl : ∀ f x, x.length ≤ f → okAt zhOk x = true →
    okAt zhOk (scanGo nlStep f x) = true :=
  scan_preserve zhOk nlStep nlStep_shrinks nlStep_jump
    (fun c r f hf _ h _ => zhOk_copy_nl c r f hf h)
    (fun c r e r2 f hstep _ hok => by
      obtain ⟨_, he, _⟩ := nlStep_some c r e r2 hstep
      subst he
      simp only [List.singleton_append, okAt, Bool.and_eq_true]
      refine ⟨?_, hok⟩
      unfold zhOk
      rw [if_neg (by decide)])

/-! ## Each substitution establishes its own invariant -/

theorem est_br : ∀ f x, x.length ≤ f → okAt brOk (scanGo brStep f x) = true := by
  intro f
  induction f with
  | zero =>
    intro x hf
    have hx : x = [] := List.length_eq_zero.mp (Nat.le_zero.mp hf)
    subst hx
    rfl
  | succ f ih =>
    intro x hf
    cases x with
    | nil => rfl
    | cons c r =>
      simp only [List.length_cons] at hf
      cases hstep : brStep c r with
      | some p =>
        obtain ⟨e, r2⟩ := p
        simp only [scanGo, hstep]
        obtain ⟨_, he, w, hw⟩ := brStep_some c r e r2 hstep
        subst he
        simp only [List.nil_append]
        refine ih r2 ?_
        rw [hw] at hf
        simp only [List.length_append, List.length_cons] at hf
        omega
      | none =>
        simp only [scanGo, hstep, okAt, Bool.and_eq_true]
        refine ⟨?_, ih r (by omega)⟩
        by_cases hc : (c == '[') = true
        · unfold brStep at hstep
          rw [if_pos hc] at hstep
          by_cases he : startsETHRB r = true
          · obtain ⟨r4, hr⟩ := startsETH_decomp r he
            subst hr
            simp only [List.length_cons] at hf
            unfold brOk
            rw [if_pos hc]
            rw [scan_eth_head brStep brStep_shrinks eth_chars_ne_br f r4 (by omega)]
            rw [startsETH_shape]
            rfl
          · rw [if_neg he] at hstep
            cases ha : afterRB r with
            | some r3 => rw [ha] at hstep; simp at hstep
            | none =>
              have hmem := afterRB_none_mem r ha
              unfold brOk
              rw [if_pos hc]
              have hsub : (scanGo brStep f r).Sublist r :=
                scan_sublist brStep brStep_shrinks brStep_del f r (by omega)
              have hout : ((scanGo brStep f r).any fun d => d == ']') = false := by
                rw [List.any_eq_false]
                intro d hd
                simpa using hmem d (hsub.subset hd)
              rw [hout]
              simp
        · unfold brOk
          rw [if_neg hc]

theorem est_jp : ∀ f x, x.length ≤ f → okAt jpOk (scanGo jpStep f x) = true := by
  intro f
  induction f with
  | zero =>
    intro x hf
    have hx : x = [] := List.length_eq_zero.mp (Nat.le_zero.mp hf)
    subst hx
    rfl
  | succ f ih =>
    intro x hf
    cases x with
    | nil => rfl
    | cons c r =>
      simp only [List.length_cons] at hf
      cases hstep : jpStep c r with
      | some p =>
        obtain ⟨e, r2⟩ := p
        simp only [scanGo, hstep]
        obtain ⟨_, he, w, hw⟩ := jpStep_some c r e r2 hstep
        subst he
        simp only [List.nil_append]
        refine ih r2 ?_
        rw [hw] at hf
        simp only [List.length_append, List.length_cons] at hf
        omega
      | none =>
        simp only [scanGo, hstep, okAt, Bool.and_eq_true]
        refine ⟨?_, ih r (by omega)⟩
        by_cases hc : (c == '『') = true
        · unfold jpStep at hstep
          rw [if_pos hc] at hstep
          cases ha : afterJp r with
          | some r3 => rw [ha] at hstep; simp at hstep
          | none =>
            have hmem := afterJp_none_mem r ha
            unfold jpOk
            rw [if_pos hc]
            have hsub : (scanGo jpStep f r).Sublist r :=
              scan_sublist jpStep jpStep_shrinks jpStep_del f r (by omega)
            have hout : ((scanGo jpStep f r).any fun d => d == '』') = false := by
              rw [List.any_eq_false]
              intro d hd
              simpa using hmem d (hsub.subset hd)
            rw [hout]
            rfl
        · unfold jpOk
          rw [if_neg hc]

theorem est_zh : ∀ f x, x.length ≤ f → okAt zhOk (scanGo zhStep f x) = true := by
  intro f
  induction f with
  | zero =>
    intro x hf
    have hx : x = [] := List.length_eq_zero.mp (Nat.le_zero.mp hf)
    subst hx
    rfl
  | succ f ih =>
    intro x hf
    cases x with
    | nil => rfl
    | cons c r =>
      simp only [List.length_cons] at hf
      cases hstep : zhStep c r with
      | some p =>
        obtain ⟨e, r2⟩ := p
        simp only [scanGo, hstep]
        obtain ⟨_, he, c2, r3, hr, _, hr2⟩ := zhStep_some c r e r2 hstep
        subst he
        simp only [List.nil_append]
        have hsh := zhStep_shrinks c r [] r2 hstep
        exact ih r2 (by omega)
      | none =>
        simp only [scanGo, hstep, okAt, Bool.and_eq_true]
        refine ⟨?_, ih r (by omega)⟩
        by_cases hc : (c == '缀') = true
        · unfold zhStep at hstep
          rw [if_pos hc] at hstep
          have hhead : headColon r = false := by
            cases r with
            | nil => rfl
            | cons c2 r2 =>
              by_cases hcol : isColon c2 = true
              · exfalso
                have : (if isColon c2 = true then
                    some (([] : List Char), dropLine r2) else none) = none := hstep
                rw [if_pos hcol] at this
                exact absurd this (by simp)
              · simp only [headColon]
                simpa using hcol
          unfold zhOk
          rw [if_pos hc]
          rw [zh_out_head f r (by omega) hhead]
          rfl
        · unfold zhOk
          rw [if_neg hc]

theorem est_nl : ∀ f x, x.length ≤ f → okAt nlOk (scanGo nlStep f x) = true := by
  intro f
  induction f with
  | zero =>
    intro x hf
    have hx : x = [] := List.length_eq_zero.mp (Nat.le_zero.mp hf)
    subst hx
    rfl
  | succ f ih =>
    intro x hf
    cases x with
    | nil => rfl
    | cons c r =>
      simp only [List.length_cons] at hf
      cases hstep : nlStep c r with
      | some p =>
        obtain ⟨e, r2⟩ := p
        simp only [scanGo, hstep]
        obtain ⟨hc, he, ha⟩ := nlStep_some c r e r2 hstep
        subst he
        have hsh := nlStep_shrinks c r ['\n'] r2 hstep
        simp only [List.singleton_append, okAt, Bool.and_eq_true, List.append_eq,
          List.nil_append]
        refine ⟨?_, ih r2 (by omega)⟩
        unfold nlOk
        rw [if_pos (by decide)]
        rw [nl_out_run f r2 (by omega) (lastNlSplit_tail r r2 ha)]
        rfl
      | none =>
        simp only [scanGo, hstep, okAt, Bool.and_eq_true]
        refine ⟨?_, ih r (by omega)⟩
        by_cases hc : (c == '\n') = true
        · unfold nlStep at hstep
          rw [if_pos hc] at hstep
          cases ha : lastNlSplit r with
          | some r3 => rw [ha] at hstep; simp at hstep
          | none =>
            unfold nlOk
            rw [if_pos hc]
            rw [nl_out_run f r (by omega) (lastNlSplit_none r ha)]
            rfl
        · unfold nlOk
          rw [if_neg hc]

/-! ## Trim lemmas -/

theorem dropEndWs_prefix : ∀ x : List Char, ∃ w, x = dropEndWs x ++ w ∧
    ∀ c ∈ w, isJsWs c = true := by
  intro x
  induction x with
  | nil => exact ⟨[], rfl, by simp⟩
  | cons c r ih =>
    obtain ⟨w, hw, hall⟩ := ih
    cases hd : dropEndWs r with
    | nil =>
      rw [hd] at hw
      simp only [List.nil_append] at hw
      by_cases hc : isJsWs c = true
      · refine ⟨c :: r, ?_, ?_⟩
        · simp only [dropEndWs, hd, hc, if_true, List.nil_append]
        · intro d hdm
          rcases List.mem_cons.mp hdm with hdm | hdm
          · subst hdm; exact hc
          · exact hall d (by rw [← hw]; exact hdm)
      · refine ⟨w, ?_, hall⟩
        simp only [dropEndWs, hd, hc, if_false, Bool.false_eq_true]
        rw [List.singleton_append, ← hw]
    | cons x2 xs =>
      refine ⟨w, ?_, hall⟩
      simp only [dropEndWs, hd]
      rw [hd] at hw
      rw [List.cons_append, ← hw]

theorem dropEndWs_last_not : ∀ (z : List Char) (h : Char),
    (dropEndWs z).getLast? = some h → isJsWs h = false := by
  intro z
  induction z with
  | nil => intro h hh; exact absurd hh (by simp [dropEndWs])
  | cons c r ih =>
    intro h hh
    cases hd : dropEndWs r with
    | nil =>
      simp only [dropEndWs, hd] at hh
      by_cases hc : isJsWs c = true
      · rw [if_pos hc] at hh
        exact absurd hh (by simp)
      · rw [if_neg hc] at hh
        simp only [List.getLast?_singleton, Option.some.injEq] at hh
        subst hh
        simpa using hc
    | cons x2 xs =>
      simp only [dropEndWs, hd] at hh
      rw [List.getLast?_cons_cons] at hh
      refine ih h ?_
      rw [hd]
      exact hh

theorem dropEndWs_noop : ∀ z : List Char,
    (∀ h, z.getLast? = some h → isJsWs h = false) → dropEndWs z = z := by
  intro z
  induction z with
  | nil => intro _; rfl
  | cons c r ih =>
    intro hl
    cases r with
    | nil =>
      have hc := hl c (by simp)
      simp only [dropEndWs, hc, if_false, Bool.false_eq_true]
    | cons y t =>
      have hr : dropEndWs (y :: t) = y :: t := by
        refine ih ?_
        intro h hh
        refine hl h ?_
        rw [List.getLast?_cons_cons]
        exact hh
      show (match dropEndWs (y :: t) with
        | [] => if isJsWs c = true then [] else [c]
        | x :: xs => c :: x :: xs) = c :: y :: t
      rw [hr]

theorem dropWhile_head_not : ∀ (x : List Char) (h : Char) (t : List Char),
    x.dropWhile isJsWs = h :: t → isJsWs h = false := by
  intro x
  induction x with
  | nil => intro h t hh; exact absurd hh (by simp)
  | cons c r ih =>
    intro h t hh
    by_cases hc : isJsWs c = true
    · rw [List.dropWhile_cons_of_pos hc] at hh
      exact ih h t hh
    · rw [List.dropWhile_cons_of_neg (by simpa using hc)] at hh
      simp only [List.cons.injEq] at hh
      rw [← hh.1]
      simpa using hc

theorem jsTrim_last_not (x : List Char) (h : Char)
    (hh : (jsTrim x).getLast? = some h) : isJsWs h = false :=
  dropEndWs_last_not (x.dropWhile isJsWs) h hh

theorem jsTrim_head_not (x : List Char) (h : Char)
    (hh : (jsTrim x).head? = some h) : isJsWs h = false := by
  unfold jsTrim at hh
  obtain ⟨w, hw, _⟩ := dropEndWs_prefix (x.dropWhile isJsWs)
  cases hd : dropEndWs (x.dropWhile isJsWs) with
  | nil => rw [hd] at hh; exact absurd hh (by simp)
  | cons y t =>
    rw [hd] at hh
    simp only [List.head?_cons, Option.some.injEq] at hh
    rw [hd] at hw
    refine hh ▸ dropWhile_head_not x y (t ++ w) ?_
    rw [hw]
    rfl

theorem jsTrim_noop (x : List Char)
    (hh : ∀ h, x.head? = some h → isJsWs h = false)
    (hl : ∀ h, x.getLast? = some h → isJsWs h = false) : jsTrim x = x := by
  unfold jsTrim
  have hdw : x.dropWhile isJsWs = x := by
    cases x with
    | nil => rfl
    | cons c r =>
      have hc := hh c (by simp)
      rw [List.dropWhile_cons_of_neg (by simpa using hc)]
  rw [hdw]
  exact dropEndWs_noop x hl

theorem jsTrim_idem (x : List Char) : jsTrim (jsTrim x) = jsTrim x :=
  jsTrim_noop (jsTrim x) (jsTrim_head_not x) (jsTrim_last_not x)

/-! ## The invariants survive shortening from the right -/

theorem startsETH_long (v w : List Char) (he : startsETHRB (v ++ w) = true)
    (hlen : 4 ≤ v.length) : startsETHRB v = true := by
  match v, hlen with
  | [], hlen => simp at hlen
  | [a], hlen => simp at hlen
  | [a, b], hlen => simp at hlen
  | [a, b, d], hlen => simp at hlen
  | a :: b :: d :: e2 :: v5, _ =>
    obtain ⟨z, hz⟩ := startsETH_decomp _ he
    simp only [List.cons_append, List.cons.injEq] at hz
    obtain ⟨h1, h2, h3, h4, _⟩ := hz
    subst h1; subst h2; subst h3; subst h4
    exact startsETH_shape v5

theorem startsETH_pre (v w : List Char) (he : startsETHRB (v ++ w) = true)
    (hlen : v.length ≤ 3) : (v.any fun d => d == ']') = false := by
  obtain ⟨z, hz⟩ := startsETH_decomp _ he
  match v, hlen with
  | [], _ => rfl
  | [a], _ =>
    simp only [List.cons_append, List.nil_append, List.cons.injEq] at hz
    obtain ⟨h1, _⟩ := hz
    subst h1
    decide
  | [a, b], _ =>
    simp only [List.cons_append, List.nil_append, List.cons.injEq] at hz
    obtain ⟨h1, h2, _⟩ := hz
    subst h1; subst h2
    decide
  | [a, b, d], _ =>
    simp only [List.cons_append, List.nil_append, List.cons.injEq] at hz
    obtain ⟨h1, h2, h3, _⟩ := hz
    subst h1; subst h2; subst h3
    decide
  | a :: b :: d :: e2 :: v5, hlen =>
    simp only [List.length_cons] at hlen
    omega

theorem brOk_shorten (c : Char) (v w : List Char) (h : brOk c (v ++ w) = true) :
    brOk c v = true := by
  unfold brOk at h ⊢
  by_cases hc : (c == '[') = true
  · rw [if_pos hc] at h ⊢
    by_cases he : startsETHRB (v ++ w) = true
    · by_cases hlen : 4 ≤ v.length
      · rw [startsETH_long v w he hlen]
        rfl
      · rw [startsETH_pre v w he (by omega)]
        simp
    · simp only [he, Bool.false_or] at h
      have h2 : ((v ++ w).any fun d => d == ']') = false := by simpa using h
      simp only [List.any_append, Bool.or_eq_false_iff] at h2
      rw [h2.1]
      simp
  · rw [if_neg hc]

theorem jpOk_shorten (c : Char) (v w : List Char) (h : jpOk c (v ++ w) = true) :
    jpOk c v = true := by
  unfold jpOk at h ⊢
  by_cases hc : (c == '『') = true
  · rw [if_pos hc] at h ⊢
    have h2 : ((v ++ w).any fun d => d == '』') = false := by simpa using h
    simp only [List.any_append, Bool.or_eq_false_iff] at h2
    rw [h2.1]
    rfl
  · rw [if_neg hc]

theorem zhOk_shorten (c : Char) (v w : List Char) (h : zhOk c (v ++ w) = true) :
    zhOk c v = true := by
  unfold zhOk at h ⊢
  by_cases hc : (c == '缀') = true
  · rw [if_pos hc] at h ⊢
    cases v with
    | nil => rfl
    | cons d t => simpa only [List.cons_append, headColon] using h
  · rw [if_neg hc]

theorem wsRunNl_pre (v w : List Char) (h : wsRunNl v = true) :
    wsRunNl (v ++ w) = true := by
  unfold wsRunNl at h ⊢
  rw [List.takeWhile_append]
  by_cases hlen : (v.takeWhile isJsWs).length = v.length
  · rw [if_pos hlen]
    have htv : v.takeWhile isJsWs = v := (List.takeWhile_prefix _).eq_of_length hlen
    rw [htv] at h
    rw [List.any_append, h]
    rfl
  · rw [if_neg hlen]
    exact h

theorem nlOk_shorten (c : Char) (v w : List Char) (h : nlOk c (v ++ w) = true) :
    nlOk c v = true := by
  unfold nlOk at h ⊢
  by_cases hc : (c == '\n') = true
  · rw [if_pos hc] at h ⊢
    by_cases hrun : wsRunNl v = true
    · rw [wsRunNl_pre v w hrun] at h
      exact absurd h (by simp)
    · rw [Bool.not_eq_true] at hrun
      rw [hrun]
      rfl
  · rw [if_neg hc]

theorem okAt_append_left (cond : Char → List Char → Bool)
    (hshort : ∀ c v w, cond c (v ++ w) = true → cond c v = true)
    (a w : List Char) (h : okAt cond (a ++ w) = true) : okAt cond a = true := by
  rw [okAt_iff] at h ⊢
  intro u c v hu
  refine hshort c v w (h u c (v ++ w) ?_)
  rw [hu]
  simp

theorem okAt_jsTrim (cond : Char → List Char → Bool)
    (hshort : ∀ c v w, cond c (v ++ w) = true → cond c v = true)
    (x : List Char) (h : okAt cond x = true) : okAt cond (jsTrim x) = true := by
  have h1 : okAt cond (x.dropWhile isJsWs) = true := by
    have he : x.takeWhile isJsWs ++ x.dropWhile isJsWs = x :=
      List.takeWhile_append_dropWhile isJsWs x
    exact okAt_suffix cond _ _ (by rw [he]; exact h)
  obtain ⟨w, hw, _⟩ := dropEndWs_prefix (x.dropWhile isJsWs)
  refine okAt_append_left cond hshort (jsTrim x) w ?_
  show okAt cond (dropEndWs (List.dropWhile isJsWs x) ++ w) = true
  rw [← hw]
  exact h1

/-- All four safety invariants at once. -/
def CleanOk (x : List Char) : Prop :=
  okAt brOk x = true ∧ okAt jpOk x = true ∧ okAt zhOk x = true ∧
    okAt nlOk x = true

/-- The cleaned text carries all four invariants: each substitution
establishes its own and the later stages preserve the earlier ones. -/
theorem cleanedText_clean (s : List Char) : CleanOk (cleanedText s) := by
  unfold cleanedText
  have hbr1 : okAt brOk (stripBr s) = true := est_br s.length s (le_refl _)
  have hnum : stripNum (stripBr s) = stripBr s :=
    scan_noop_of_okAt brOk numStep (fun c r hok _ => numStep_none_of_ok c r hok)
      (stripBr s).length (stripBr s) (le_refl _) hbr1
  rw [hnum]
  have hjp3 : okAt jpOk (stripJp (stripBr s)) = true :=
    est_jp (stripBr s).length (stripBr s) (le_refl _)
  have hbr3 : okAt brOk (stripJp (stripBr s)) = true :=
    pres_br_jp (stripBr s).length (stripBr s) (le_refl _) hbr1
  have hzh4 : okAt zhOk (stripZhui (stripJp (stripBr s))) = true :=
    est_zh _ _ (le_refl _)
  have hbr4 : okAt brOk (stripZhui (stripJp (stripBr s))) = true :=
    pres_br_zh _ _ (le_refl _) hbr3
  have hjp4 : okAt jpOk (stripZhui (stripJp (stripBr s))) = true :=
    pres_jp_zh _ _ (le_refl _) hjp3
  have hqz : stripQz (stripZhui (stripJp (stripBr s))) =
      stripZhui (stripJp (stripBr s)) :=
    scan_noop_of_okAt zhOk qzStep qzStep_none_of_ok _ _ (le_refl _) hzh4
  rw [hqz]
  have hnl6 : okAt nlOk (collapseBlank (stripZhui (stripJp (stripBr s)))) = true :=
    est_nl _ _ (le_refl _)
  have hbr6 : okAt brOk (collapseBlank (stripZhui (stripJp (stripBr s)))) = true :=
    pres_br_nl _ _ (le_refl _) hbr4
  have hjp6 : okAt jpOk (collapseBlank (stripZhui (stripJp (stripBr s)))) = true :=
    pres_jp_nl _ _ (le_refl _) hjp4
  have hzh6 : okAt zhOk (collapseBlank (stripZhui (stripJp (stripBr s)))) = true :=
    pres_zh_nl _ _ (le_refl _) hzh4
  exact ⟨okAt_jsTrim brOk brOk_shorten _ hbr6,
    okAt_jsTrim jpOk jpOk_shorten _ hjp6,
    okAt_jsTrim zhOk zhOk_shorten _ hzh6,
    okAt_jsTrim nlOk nlOk_shorten _ hnl6⟩

/-- On a text carrying all four invariants the six substitutions change
nothing, so cleaning it is just trimming it. -/
theorem cleanedText_of_clean (y : List Char) (h : CleanOk y) :
    cleanedText y = jsTrim y := by
  obtain ⟨hbr, hjp, hzh, hnl⟩ := h
  unfold cleanedText
  have h1 : stripBr y = y :=
    scan_noop_of_okAt brOk brStep (fun c r hok _ => brStep_none_of_ok c r hok)
      y.length y (le_refl _) hbr
  rw [h1]
  have h2 : stripNum y = y :=
    scan_noop_of_okAt brOk numStep (fun c r hok _ => numStep_none_of_ok c r hok)
      y.length y (le_refl _) hbr
  rw [h2]
  have h3 : stripJp y = y :=
    scan_noop_of_okAt jpOk jpStep (fun c r hok _ => jpStep_none_of_ok c r hok)
      y.length y (le_refl _) hjp
  rw [h3]
  have h4 : stripZhui y = y :=
    scan_noop_of_okAt zhOk zhStep (fun c r hok _ => zhStep_none_of_ok c r hok)
      y.length y (le_refl _) hzh
  rw [h4]
  have h5 : stripQz y = y :=
    scan_noop_of_okAt zhOk qzStep qzStep_none_of_ok y.length y (le_refl _) hzh
  rw [h5]
  have h6 : collapseBlank y = y :=
    scan_noop_of_okAt nlOk nlStep (fun c r hok _ => nlStep_none_of_ok c r hok)
      y.length y (le_refl _) hnl
  rw [h6]

/-! ## Split and join lemmas -/

theorem splitNl_ne_nil (x : List Char) : splitNl x ≠ [] := by
  cases x with
  | nil => simp [splitNl]
  | cons c r =>
    unfold splitNl
    by_cases hc : (c == '\n') = true
    · rw [if_pos hc]; simp
    · rw [if_neg hc]
      cases splitNl r <;> simp

theorem joinNl_splitNl (x : List Char) : joinNl (splitNl x) = x := by
  induction x with
  | nil => rfl
  | cons c r ih =>
    unfold splitNl
    by_cases hc : (c == '\n') = true
    · rw [if_pos hc]
      have hc2 : c = '\n' := by simpa using hc
      subst hc2
      cases hs : splitNl r with
      | nil => exact absurd hs (splitNl_ne_nil r)
      | cons l ls =>
        show joinNl ([] :: l :: ls) = '\n' :: r
        show [] ++ '\n' :: joinNl (l :: ls) = '\n' :: r
        rw [List.nil_append, ← hs, ih]
    · rw [if_neg hc]
      cases hs : splitNl r with
      | nil => exact absurd hs (splitNl_ne_nil r)
      | cons l ls =>
        cases ls with
        | nil =>
          show joinNl [c :: l] = c :: r
          show c :: l = c :: r
          have : joinNl [l] = r := by rw [← hs]; exact ih
          have hl : l = r := this
          rw [hl]
        | cons l2 ls2 =>
          show joinNl ((c :: l) :: l2 :: ls2) = c :: r
          show (c :: l) ++ '\n' :: joinNl (l2 :: ls2) = c :: r
          have : joinNl (l :: l2 :: ls2) = r := by rw [← hs]; exact ih
          have hl : l ++ '\n' :: joinNl (l2 :: ls2) = r := this
          rw [List.cons_append, hl]

theorem splitNl_no_nl (x : List Char) : ∀ l ∈ splitNl x, ('\n' : Char) ∉ l := by
  induction x with
  | nil =>
    intro l hl
    simp only [splitNl, List.mem_singleton] at hl
    subst hl
    simp
  | cons c r ih =>
    intro l hl
    unfold splitNl at hl
    by_cases hc : (c == '\n') = true
    · rw [if_pos hc] at hl
      rcases List.mem_cons.mp hl with hl | hl
      · subst hl; simp
      · exact ih l hl
    · rw [if_neg hc] at hl
      cases hs : splitNl r with
      | nil => exact absurd hs (splitNl_ne_nil r)
      | cons m ms =>
        rw [hs] at hl
        rcases List.mem_cons.mp hl with hl | hl
        · subst hl
          intro hmem
          rcases List.mem_cons.mp hmem with hmem | hmem
          · rw [hmem] at hc; simp at hc
          · exact ih m (by rw [hs]; exact List.mem_cons_self m ms) hmem
        · exact ih l (by rw [hs]; exact List.mem_cons_of_mem m hl)

theorem splitNl_single (l : List Char) (h : ('\n' : Char) ∉ l) :
    splitNl l = [l] := by
  induction l with
  | nil => rfl
  | cons c r ih =>
    unfold splitNl
    have hc : (c == '\n') = false := by
      have : c ≠ '\n' := fun hcc => h (by rw [hcc]; exact List.mem_cons_self _ _)
      simpa using this
    rw [if_neg (by simp [hc])]
    rw [ih (fun hm => h (List.mem_cons_of_mem c hm))]

theorem splitNl_cons (c : Char) (r : List Char) :
    splitNl (c :: r) = if (c == '\n') = true then [] :: splitNl r
      else match splitNl r with | [] => [[c]] | l :: ls => (c :: l) :: ls := rfl

theorem splitNl_append_nl (l z : List Char) (h : ('\n' : Char) ∉ l) :
    splitNl (l ++ '\n' :: z) = l :: splitNl z := by
  induction l with
  | nil =>
    simp only [List.nil_append]
    rw [splitNl_cons, if_pos (by simp)]
  | cons c r ih =>
    have hc : (c == '\n') = false := by
      have : c ≠ '\n' := fun hcc => h (by rw [hcc]; exact List.mem_cons_self _ _)
      simpa using this
    simp only [List.cons_append]
    rw [splitNl_cons, if_neg (by simp [hc])]
    rw [ih (fun hm => h (List.mem_cons_of_mem c hm))]

theorem splitNl_joinNl (L : List (List Char)) (hL : ∀ l ∈ L, ('\n' : Char) ∉ l)
    (hne : L ≠ []) : splitNl (joinNl L) = L := by
  induction L with
  | nil => exact absurd rfl hne
  | cons l ls ih =>
    cases ls with
    | nil =>
      show splitNl l = [l]
      exact splitNl_single l (hL l (List.mem_cons_self _ _))
    | cons l2 ls2 =>
      show splitNl (l ++ '\n' :: joinNl (l2 :: ls2)) = l :: l2 :: ls2
      rw [splitNl_append_nl l _ (hL l (List.mem_cons_self _ _))]
      rw [ih (fun m hm => hL m (List.mem_cons_of_mem l hm)) (by simp)]

theorem joinNl_append (A B : List (List Char)) (hA : A ≠ []) (hB : B ≠ []) :
    joinNl (A ++ B) = joinNl A ++ '\n' :: joinNl B := by
  induction A with
  | nil => exact absurd rfl hA
  | cons l ls ih =>
    cases ls with
    | nil =>
      cases B with
      | nil => exact absurd rfl hB
      | cons b bs =>
        show joinNl (l :: b :: bs) = l ++ '\n' :: joinNl (b :: bs)
        rfl
    | cons l2 ls2 =>
      have hih := ih (by simp)
      show joinNl (l :: (l2 :: ls2 ++ B)) = (l ++ '\n' :: joinNl (l2 :: ls2)) ++ '\n' :: joinNl B
      have hcons : joinNl (l :: (l2 :: ls2 ++ B)) = l ++ '\n' :: joinNl (l2 :: ls2 ++ B) := by
        cases B with
        | nil => exact absurd rfl hB
        | cons b bs => rfl
      rw [hcons, hih]
      simp [List.append_assoc]

theorem joinNl_head (l : List Char) (ls : List (List Char)) (hl : l ≠ []) :
    (joinNl (l :: ls)).head? = l.head? := by
  cases ls with
  | nil => rfl
  | cons l2 ls2 =>
    show (l ++ '\n' :: joinNl (l2 :: ls2)).head? = l.head?
    cases l with
    | nil => exact absurd rfl hl
    | cons c t => rfl

theorem joinNl_getLast : ∀ (L : List (List Char)) (l : List Char),
    L.getLast? = some l → l ≠ [] → (joinNl L).getLast? = l.getLast? := by
  intro L
  induction L with
  | nil => intro l hl _; exact absurd hl (by simp)
  | cons m ms ih =>
    intro l hl hlne
    cases ms with
    | nil =>
      simp only [List.getLast?_singleton, Option.some.injEq] at hl
      subst hl
      rfl
    | cons m2 ms2 =>
      rw [List.getLast?_cons_cons] at hl
      have hih := ih l hl hlne
      show (m ++ '\n' :: joinNl (m2 :: ms2)).getLast? = l.getLast?
      rw [List.getLast?_append_of_ne_nil]
      · show (('\n' :: joinNl (m2 :: ms2)).getLast?) = l.getLast?
        cases hj : joinNl (m2 :: ms2) with
        | nil =>
          rw [hj] at hih
          exfalso
          have hsome : l.getLast?.isSome := List.getLast?_isSome.mpr hlne
          rw [← hih] at hsome
          simp at hsome
        | cons j js =>
          rw [hj] at hih
          rw [List.getLast?_cons_cons]
          exact hih
      · simp

/-! ## Removing the middle lines preserves the invariants -/

theorem startsETH_ext (w z : List Char) (h : startsETHRB w = true) :
    startsETHRB (w ++ z) = true := by
  obtain ⟨w4, hw⟩ := startsETH_decomp w h
  subst hw
  exact startsETH_shape (w4 ++ z)

theorem starts_nl_small (w z : List Char)
    (h : startsETHRB (w ++ '\n' :: z) = true) : 4 ≤ w.length := by
  obtain ⟨z2, hz⟩ := startsETH_decomp _ h
  match w, hz with
  | [], hz =>
    simp only [List.nil_append, List.cons.injEq] at hz
    exact absurd hz.1 (by decide)
  | [a], hz =>
    simp only [List.cons_append, List.nil_append, List.cons.injEq] at hz
    exact absurd hz.2.1 (by decide)
  | [a, b], hz =>
    simp only [List.cons_append, List.nil_append, List.cons.injEq] at hz
    exact absurd hz.2.2.1 (by decide)
  | [a, b, d], hz =>
    simp only [List.cons_append, List.nil_append, List.cons.injEq] at hz
    exact absurd hz.2.2.2.1 (by decide)
  | a :: b :: d :: e2 :: w5, _ => simp

theorem takeWhile_all (p : Char → Bool) (v : List Char)
    (h : ∀ c ∈ v, p c = true) : v.takeWhile p = v := by
  induction v with
  | nil => rfl
  | cons c r ih =>
    rw [List.takeWhile_cons, if_pos (h c (List.mem_cons_self _ _))]
    rw [ih (fun d hd => h d (List.mem_cons_of_mem c hd))]

theorem brOk_mid (c : Char) (w IM IB : List Char)
    (h : brOk c (w ++ '\n' :: (IM ++ '\n' :: IB)) = true) :
    brOk c (w ++ '\n' :: IB) = true := by
  unfold brOk at h ⊢
  by_cases hc : (c == '[') = true
  · rw [if_pos hc] at h ⊢
    by_cases he : startsETHRB (w ++ '\n' :: (IM ++ '\n' :: IB)) = true
    · have hlen := starts_nl_small w _ he
      have hw := startsETH_long w _ he hlen
      rw [startsETH_ext w _ hw]
      rfl
    · simp only [he, Bool.false_or] at h
      have h2 : ((w ++ '\n' :: (IM ++ '\n' :: IB)).any fun d => d == ']') = false := by
        simpa using h
      simp only [List.any_append, List.any_cons, Bool.or_eq_false_iff] at h2
      have hnew : ((w ++ '\n' :: IB).any fun d => d == ']') = false := by
        simp only [List.any_append, List.any_cons, Bool.or_eq_false_iff]
        exact ⟨h2.1, h2.2.1, h2.2.2.2.2⟩
      rw [hnew]
      simp
  · rw [if_neg hc]

theorem jpOk_mid (c : Char) (w IM IB : List Char)
    (h : jpOk c (w ++ '\n' :: (IM ++ '\n' :: IB)) = true) :
    jpOk c (w ++ '\n' :: IB) = true := by
  unfold jpOk at h ⊢
  by_cases hc : (c == '『') = true
  · rw [if_pos hc] at h ⊢
    have h2 : ((w ++ '\n' :: (IM ++ '\n' :: IB)).any fun d => d == '』') = false := by
      simpa using h
    simp only [List.any_append, List.any_cons, Bool.or_eq_false_iff] at h2
    have hnew : ((w ++ '\n' :: IB).any fun d => d == '』') = false := by
      simp only [List.any_append, List.any_cons, Bool.or_eq_false_iff]
      exact ⟨h2.1, h2.2.1, h2.2.2.2.2⟩
    rw [hnew]
    rfl
  · rw [if_neg hc]

theorem zhOk_mid (c : Char) (w IM IB : List Char)
    (h : zhOk c (w ++ '\n' :: (IM ++ '\n' :: IB)) = true) :
    zhOk c (w ++ '\n' :: IB) = true := by
  unfold zhOk at h ⊢
  by_cases hc : (c == '缀') = true
  · rw [if_pos hc] at h ⊢
    cases w with
    | nil => simp only [List.nil_append, headColon]; decide
    | cons d t => simpa only [List.cons_append, headColon] using h
  · rw [if_neg hc]

theorem nlOk_mid (c : Char) (w IM IB : List Char)
    (h : nlOk c (w ++ '\n' :: (IM ++ '\n' :: IB)) = true) :
    nlOk c (w ++ '\n' :: IB) = true := by
  unfold nlOk at h ⊢
  by_cases hc : (c == '\n') = true
  · rw [if_pos hc] at h ⊢
    by_cases hall : ∀ d ∈ w, isJsWs d = true
    · exfalso
      unfold wsRunNl at h
      rw [List.takeWhile_append] at h
      rw [takeWhile_all isJsWs w hall] at h
      rw [if_pos rfl] at h
      simp only [List.any_append, List.takeWhile_cons, (by decide : isJsWs '\n' = true),
        if_true, List.any_cons, (by decide : ('\n' == '\n') = true)] at h
      simp at h
    · push_neg at hall
      obtain ⟨d, hd, hdw⟩ := hall
      have hlen : (w.takeWhile isJsWs).length ≠ w.length := by
        intro hl
        have htv : w.takeWhile isJsWs = w := (List.takeWhile_prefix _).eq_of_length hl
        have := List.mem_takeWhile_imp (by rw [htv]; exact hd : d ∈ w.takeWhile isJsWs)
        exact hdw this
      unfold wsRunNl at h ⊢
      rw [List.takeWhile_append, if_neg hlen] at h ⊢
      exact h
  · rw [if_neg hc]

theorem okAt_surgery (cond : Char → List Char → Bool) (IA IM IB : List Char)
    (hmid : ∀ c w, cond c (w ++ '\n' :: (IM ++ '\n' :: IB)) = true →
      cond c (w ++ '\n' :: IB) = true)
    (hjunc : cond '\n' IB = true)
    (h : okAt cond (IA ++ '\n' :: (IM ++ '\n' :: IB)) = true) :
    okAt cond (IA ++ '\n' :: IB) = true := by
  rw [okAt_iff] at h ⊢
  intro a c b hab
  rcases cons_split IA ('\n' :: IB) a b c hab with ⟨w, hIA, hb⟩ | ⟨w, _, hv⟩
  · subst hb
    refine hmid c w (h a c (w ++ '\n' :: (IM ++ '\n' :: IB)) ?_)
    rw [hIA]
    simp [List.append_assoc]
  · cases w with
    | nil =>
      simp only [List.nil_append, List.cons.injEq] at hv
      obtain ⟨h1, h2⟩ := hv
      rw [← h1, ← h2]
      exact hjunc
    | cons w1 w2 =>
      simp only [List.cons_append, List.cons.injEq] at hv
      obtain ⟨_, hIB⟩ := hv
      refine h (IA ++ '\n' :: (IM ++ '\n' :: w2)) c b ?_
      rw [hIB]
      simp [List.append_assoc]

theorem clean_surgery (IA IM IB : List Char) (hB : wsRunNl IB = false)
    (h : CleanOk (IA ++ '\n' :: (IM ++ '\n' :: IB))) :
    CleanOk (IA ++ '\n' :: IB) := by
  obtain ⟨hbr, hjp, hzh, hnl⟩ := h
  refine ⟨?_, ?_, ?_, ?_⟩
  · exact okAt_surgery brOk IA IM IB (fun c w => brOk_mid c w IM IB)
      (by unfold brOk; rw [if_neg (by decide)]) hbr
  · exact okAt_surgery jpOk IA IM IB (fun c w => jpOk_mid c w IM IB)
      (by unfold jpOk; rw [if_neg (by decide)]) hjp
  · exact okAt_surgery zhOk IA IM IB (fun c w => zhOk_mid c w IM IB)
      (by unfold zhOk; rw [if_neg (by decide)]) hzh
  · exact okAt_surgery nlOk IA IM IB (fun c w => nlOk_mid c w IM IB)
      (by unfold nlOk; rw [if_pos (by decide)]; rw [hB]; rfl) hnl

/-! ## Marker lines contain visible characters -/

theorem hasPre_mem : ∀ n h : List Char, hasPre n h = true → ∀ c ∈ n, c ∈ h := by
  intro n
  induction n with
  | nil => intro h _ c hc; exact absurd hc (by simp)
  | cons x ns ih =>
    intro h hp c hc
    cases h with
    | nil => exact absurd hp (by simp [hasPre])
    | cons y hs =>
      simp only [hasPre, Bool.and_eq_true, beq_iff_eq] at hp
      rcases List.mem_cons.mp hc with hc | hc
      · subst hc
        rw [hp.1]
        exact List.mem_cons_self _ _
      · exact List.mem_cons_of_mem y (ih hs hp.2 c hc)

theorem hasSub_mem (n : List Char) : ∀ h : List Char, hasSub n h = true →
    ∀ c ∈ n, c ∈ h := by
  intro h
  induction h with
  | nil =>
    intro hs c hc
    simp only [hasSub, List.isEmpty_iff] at hs
    subst hs
    exact absurd hc (by simp)
  | cons y hs ih =>
    intro hsub c hc
    simp only [hasSub, Bool.or_eq_true] at hsub
    rcases hsub with hsub | hsub
    · exact hasPre_mem n (y :: hs) hsub c hc
    · exact List.mem_cons_of_mem y (ih hsub c hc)

theorem marker_nonws (l : List Char) (h : isMarkerLine l = true) :
    ∃ c ∈ l, isJsWs c = false := by
  unfold isMarkerLine at h
  simp only [Bool.or_eq_true] at h
  rcases h with (h | h) | h
  · exact ⟨'需', hasSub_mem _ l h '需' (by decide), by decide⟩
  · exact ⟨'等', hasSub_mem _ l h '等' (by decide), by decide⟩
  · exact ⟨'R', hasSub_mem _ l h 'R' (by decide), by decide⟩

theorem wsRunNl_no_nl (v : List Char) (h : ('\n' : Char) ∉ v) :
    wsRunNl v = false := by
  unfold wsRunNl
  rw [List.any_eq_false]
  intro d hd
  have : d ∈ v := (List.takeWhile_sublist _).subset hd
  simp only [beq_iff_eq]
  intro hdn
  exact h (hdn ▸ this)

theorem wsRunNl_line (lm : List Char) (rest : List (List Char))
    (hnl : ('\n' : Char) ∉ lm) (hvis : ∃ c ∈ lm, isJsWs c = false) :
    wsRunNl (joinNl (lm :: rest)) = false := by
  cases rest with
  | nil => exact wsRunNl_no_nl lm hnl
  | cons l2 ls2 =>
    show wsRunNl (lm ++ '\n' :: joinNl (l2 :: ls2)) = false
    obtain ⟨d, hd, hdw⟩ := hvis
    have hlen : (lm.takeWhile isJsWs).length ≠ lm.length := by
      intro hl
      have htv : lm.takeWhile isJsWs = lm := (List.takeWhile_prefix _).eq_of_length hl
      have : isJsWs d = true := List.mem_takeWhile_imp
        (show d ∈ lm.takeWhile isJsWs by rw [htv]; exact hd)
      rw [this] at hdw
      exact Bool.noConfusion hdw
    unfold wsRunNl
    rw [List.takeWhile_append, if_neg hlen]
    have : wsRunNl lm = false := wsRunNl_no_nl lm hnl
    unfold wsRunNl at this
    exact this

/-! ## Line bookkeeping for the truncation step -/

theorem drop_decomp : ∀ (i : Nat) (L : List (List Char)), i < L.length →
    L.drop i = L.getD i [] :: L.drop (i + 1) := by
  intro i
  induction i with
  | zero =>
    intro L hL
    cases L with
    | nil => simp at hL
    | cons x t => rfl
  | succ n ih =>
    intro L hL
    cases L with
    | nil => simp at hL
    | cons x t =>
      simp only [List.length_cons] at hL
      show t.drop n = _ :: t.drop (n + 1)
      exact ih t (by omega)

theorem getLast?_drop : ∀ (i : Nat) (L : List (List Char)), L.drop i ≠ [] →
    (L.drop i).getLast? = L.getLast? := by
  intro i
  induction i with
  | zero => intro L _; rfl
  | succ n ih =>
    intro L hne
    cases L with
    | nil => exact absurd rfl hne
    | cons x t =>
      show (t.drop n).getLast? = (x :: t).getLast?
      have ht : t.drop n ≠ [] := hne
      have htne : t ≠ [] := by
        intro h
        subst h
        simp at ht
      rw [ih t ht]
      cases t with
      | nil => exact absurd rfl htne
      | cons y ts => rw [List.getLast?_cons_cons]

theorem getD_mem (L : List (List Char)) (i : Nat) (hi : i < L.length) :
    L.getD i [] ∈ L := by
  rw [List.getD_eq_getElem L [] hi]
  exact List.getElem_mem hi

theorem take_no_marker : ∀ (n : Nat) (L : List (List Char)),
    (∀ j, j < n → isMarkerLine (L.getD j []) = false) →
    ∀ l ∈ L.take n, isMarkerLine l = false := by
  intro n
  induction n with
  | zero => intro L _ l hl; simp at hl
  | succ m ih =>
    intro L hj l hl
    cases L with
    | nil => simp at hl
    | cons x t =>
      rw [List.take_succ_cons] at hl
      rcases List.mem_cons.mp hl with hl | hl
      · subst hl
        exact hj 0 (by omega)
      · exact ih t (fun j hjm => hj (j + 1) (by omega)) l hl

theorem fm_concat : ∀ (A : List (List Char)) (m : List Char)
    (rest : List (List Char)), (∀ l ∈ A, isMarkerLine l = false) →
    isMarkerLine m = true →
    firstMarkerIdx (A ++ m :: rest) = some A.length := by
  intro A
  induction A with
  | nil =>
    intro m rest _ hm
    simp only [List.nil_append, firstMarkerIdx, hm, if_true, List.length_nil]
  | cons a A2 ih =>
    intro m rest hA hm
    have ha : isMarkerLine a = false := hA a (List.mem_cons_self _ _)
    simp only [List.cons_append, firstMarkerIdx, ha, Bool.false_eq_true, if_false,
      List.append_eq]
    rw [ih m rest (fun l hl => hA l (List.mem_cons_of_mem a hl)) hm]
    simp [List.length_cons]

theorem joinNl_last_nl : ∀ (L : List (List Char)), L.getLast? = some [] →
    2 ≤ L.length → (joinNl L).getLast? = some '\n' := by
  intro L
  induction L with
  | nil => intro h _; exact absurd h (by simp)
  | cons m ms ih =>
    intro hl hlen
    cases ms with
    | nil => simp at hlen
    | cons m2 ms2 =>
      rw [List.getLast?_cons_cons] at hl
      show (m ++ '\n' :: joinNl (m2 :: ms2)).getLast? = some '\n'
      rw [List.getLast?_append_cons m '\n' (joinNl (m2 :: ms2))]
      cases ms2 with
      | nil =>
        simp only [List.getLast?_singleton, Option.some.injEq] at hl
        subst hl
        rfl
      | cons m3 ms3 =>
        have hih := ih hl (by simp)
        have hne : joinNl (m2 :: m3 :: ms3) ≠ [] := by
          intro h
          rw [h] at hih
          simp at hih
        cases hj : joinNl (m2 :: m3 :: ms3) with
        | nil => exact absurd hj hne
        | cons j js =>
          rw [List.getLast?_cons_cons, ← hj]
          exact hih

theorem clean_jsTrim (x : List Char) (h : CleanOk x) : CleanOk (jsTrim x) :=
  ⟨okAt_jsTrim brOk brOk_shorten x h.1,
    okAt_jsTrim jpOk jpOk_shorten x h.2.1,
    okAt_jsTrim zhOk zhOk_shorten x h.2.2.1,
    okAt_jsTrim nlOk nlOk_shorten x h.2.2.2⟩

/-! ## Stability of the truncation step -/

theorem levelTrunc_none (p : List Char)
    (h : firstMarkerIdx (splitNl p) = none) : levelTrunc p = p := by
  simp only [levelTrunc, h]

theorem levelTrunc_some (p : List Char) (i : Nat)
    (h : firstMarkerIdx (splitNl p) = some i) :
    levelTrunc p = jsTrim (joinNl
      ((splitNl p).take (min 3 i) ++ (splitNl p).drop i)) := by
  simp only [levelTrunc, h]

theorem levelTrunc_stable (q : List Char) (hclean : CleanOk q)
    (htrim : jsTrim q = q) :
    CleanOk (levelTrunc q) ∧ jsTrim (levelTrunc q) = levelTrunc q ∧
      levelTrunc (levelTrunc q) = levelTrunc q := by
  cases hidx : firstMarkerIdx (splitNl q) with
  | none =>
    rw [levelTrunc_none q hidx]
    exact ⟨hclean, htrim, levelTrunc_none q hidx⟩
  | some i =>
    obtain ⟨hi, hmark, hbef⟩ := (firstMarkerIdx_some_iff _ i).mp hidx
    by_cases hle : i ≤ 3
    · have hmin : min 3 i = i := by omega
      have hp : levelTrunc q = q := by
        rw [levelTrunc_some q i hidx, hmin, List.take_append_drop,
          joinNl_splitNl, htrim]
      rw [hp]
      exact ⟨hclean, htrim, hp⟩
    · push_neg at hle
      have hmin : min 3 i = 3 := by omega
      have hAlen : ((splitNl q).take 3).length = 3 := by
        rw [List.length_take]
        omega
      have hAne : (splitNl q).take 3 ≠ [] := by
        intro h
        have h2 := congrArg List.length h
        rw [hAlen] at h2
        simp at h2
      have hBne : (splitNl q).drop i ≠ [] := by
        intro h
        have h2 := congrArg List.length h
        rw [List.length_drop] at h2
        simp only [List.length_nil] at h2
        omega
      have hMne : ((splitNl q).drop 3).take (i - 3) ≠ [] := by
        intro h
        have h2 := congrArg List.length h
        rw [List.length_take, List.length_drop] at h2
        simp only [List.length_nil] at h2
        omega
      have hMBne : ((splitNl q).drop 3).take (i - 3) ++ (splitNl q).drop i ≠ [] := by
        intro h
        exact hMne (List.append_eq_nil.mp h).1
      have hLdecomp : splitNl q = (splitNl q).take 3 ++
          (((splitNl q).drop 3).take (i - 3) ++ (splitNl q).drop i) := by
        conv_lhs => rw [← List.take_append_drop 3 (splitNl q)]
        congr 1
        conv_lhs => rw [← List.take_append_drop (i - 3) ((splitNl q).drop 3)]
        congr 1
        rw [List.drop_drop]
        congr 1
        omega
      have hnoNl := splitNl_no_nl q
      have hq : q = joinNl ((splitNl q).take 3) ++ '\n' ::
          (joinNl (((splitNl q).drop 3).take (i - 3)) ++ '\n' ::
            joinNl ((splitNl q).drop i)) := by
        conv_lhs => rw [← joinNl_splitNl q, hLdecomp]
        rw [joinNl_append _ _ hAne hMBne, joinNl_append _ _ hMne hBne]
      have hBdecomp : (splitNl q).drop i =
          (splitNl q).getD i [] :: (splitNl q).drop (i + 1) := drop_decomp i _ hi
      have hmem_i : (splitNl q).getD i [] ∈ splitNl q := getD_mem _ i hi
      have hIB : wsRunNl (joinNl ((splitNl q).drop i)) = false := by
        rw [hBdecomp]
        exact wsRunNl_line _ _ (hnoNl _ hmem_i) (marker_nonws _ hmark)
      have hcleanq2 : CleanOk (joinNl ((splitNl q).take 3) ++ '\n' ::
          (joinNl (((splitNl q).drop 3).take (i - 3)) ++ '\n' ::
            joinNl ((splitNl q).drop i))) := by
        rw [← hq]
        exact hclean
      have hcleanp' : CleanOk (joinNl ((splitNl q).take 3) ++ '\n' ::
          joinNl ((splitNl q).drop i)) := clean_surgery _ _ _ hIB hcleanq2
      have hja : joinNl ((splitNl q).take 3 ++ (splitNl q).drop i) =
          joinNl ((splitNl q).take 3) ++ '\n' :: joinNl ((splitNl q).drop i) :=
        joinNl_append _ _ hAne hBne
      have hqne : q ≠ [] := by
        intro h
        subst h
        simp only [splitNl, List.length_cons, List.length_nil] at hi
        omega
      obtain ⟨c0, hc0⟩ : ∃ c0, q.head? = some c0 := by
        cases q with
        | nil => exact absurd rfl hqne
        | cons a t => exact ⟨a, rfl⟩
      have hc0ws : isJsWs c0 = false := by
        rw [← htrim] at hc0
        exact jsTrim_head_not q c0 hc0
      obtain ⟨l0, L', hL0⟩ : ∃ l0 L', splitNl q = l0 :: L' := by
        cases hsq : splitNl q with
        | nil => exact absurd hsq (splitNl_ne_nil q)
        | cons a t => exact ⟨a, t, rfl⟩
      have hl0ne : l0 ≠ [] := by
        intro h
        subst h
        have hLlen : 2 ≤ (splitNl q).length := by omega
        rw [hL0] at hLlen
        simp only [List.length_cons] at hLlen
        cases L' with
        | nil => simp at hLlen
        | cons l2 ls =>
          have : q.head? = some '\n' := by
            conv_lhs => rw [← joinNl_splitNl q, hL0]
            rfl
          rw [this] at hc0
          simp only [Option.some.injEq] at hc0
          rw [← hc0] at hc0ws
          exact absurd hc0ws (by decide)
      have hql0 : q.head? = l0.head? := by
        conv_lhs => rw [← joinNl_splitNl q, hL0]
        exact joinNl_head l0 L' hl0ne
      obtain ⟨llast, hlast⟩ : ∃ l, (splitNl q).getLast? = some l :=
        Option.isSome_iff_exists.mp (List.getLast?_isSome.mpr (splitNl_ne_nil q))
      have hllne : llast ≠ [] := by
        intro h
        subst h
        have h2 : (joinNl (splitNl q)).getLast? = some '\n' :=
          joinNl_last_nl _ hlast (by omega)
        rw [joinNl_splitNl] at h2
        rw [← htrim] at h2
        exact absurd (jsTrim_last_not q '\n' h2) (by decide)
      have hqlast : q.getLast? = llast.getLast? := by
        conv_lhs => rw [← joinNl_splitNl q]
        exact joinNl_getLast _ llast hlast hllne
      have hkept_head : (joinNl ((splitNl q).take 3 ++ (splitNl q).drop i)).head? =
          l0.head? := by
        rw [hL0]
        have ht3 : (l0 :: L').take 3 = l0 :: L'.take 2 := rfl
        rw [ht3, List.cons_append]
        exact joinNl_head l0 _ hl0ne
      have hkept_last : ((splitNl q).take 3 ++ (splitNl q).drop i).getLast? =
          some llast := by
        rw [List.getLast?_append_of_ne_nil ((splitNl q).take 3) hBne,
          getLast?_drop i _ hBne, hlast]
      have hp'_last : (joinNl ((splitNl q).take 3 ++ (splitNl q).drop i)).getLast? =
          llast.getLast? :=
        joinNl_getLast _ llast hkept_last hllne
      have htrimp' : jsTrim (joinNl ((splitNl q).take 3 ++ (splitNl q).drop i)) =
          joinNl ((splitNl q).take 3 ++ (splitNl q).drop i) := by
        refine jsTrim_noop _ ?_ ?_
        · intro h hh
          rw [hkept_head, ← hql0, hc0] at hh
          simp only [Option.some.injEq] at hh
          rw [← hh]
          exact hc0ws
        · intro h hh
          rw [hp'_last, ← hqlast] at hh
          rw [← htrim] at hh
          exact jsTrim_last_not q h hh
      have hpp' : levelTrunc q = joinNl ((splitNl q).take 3 ++ (splitNl q).drop i) := by
        rw [levelTrunc_some q i hidx, hmin]
        exact htrimp'
      have hcleanp : CleanOk (levelTrunc q) := by
        rw [hpp', hja]
        exact hcleanp'
      have htrimp : jsTrim (levelTrunc q) = levelTrunc q := by
        rw [hpp']
        exact htrimp'
      have hkept_nl : ∀ l ∈ (splitNl q).take 3 ++ (splitNl q).drop i,
          ('\n' : Char) ∉ l := by
        intro l hl
        rcases List.mem_append.mp hl with hl | hl
        · exact hnoNl l ((List.take_sublist _ _).subset hl)
        · exact hnoNl l ((List.drop_sublist _ _).subset hl)
      have hsplitp : splitNl (levelTrunc q) =
          (splitNl q).take 3 ++ (splitNl q).drop i := by
        rw [hpp']
        refine splitNl_joinNl _ hkept_nl ?_
        intro h
        exact hAne (List.append_eq_nil.mp h).1
      have hfmp : firstMarkerIdx (splitNl (levelTrunc q)) = some 3 := by
        rw [hsplitp, hBdecomp]
        have h3 := fm_concat ((splitNl q).take 3) ((splitNl q).getD i [])
          ((splitNl q).drop (i + 1))
          (take_no_marker 3 _ (fun j hj => hbef j (by omega))) hmark
        rw [h3, hAlen]
      have hfinal : levelTrunc (levelTrunc q) = levelTrunc q := by
        rw [levelTrunc_some (levelTrunc q) 3 hfmp, hsplitp]
        have hmin33 : min 3 3 = 3 := rfl
        rw [hmin33]
        have ht : ((splitNl q).take 3 ++ (splitNl q).drop i).take 3 =
            (splitNl q).take 3 := by
          have h1 := List.take_left ((splitNl q).take 3) ((splitNl q).drop i)
          rw [hAlen] at h1
          exact h1
        have hd : ((splitNl q).take 3 ++ (splitNl q).drop i).drop 3 =
            (splitNl q).drop i := by
          have h1 := List.drop_left ((splitNl q).take 3) ((splitNl q).drop i)
          rw [hAlen] at h1
          exact h1
        rw [ht, hd, hpp']
        exact htrimp'
      exact ⟨hcleanp, htrimp, hfinal⟩

theorem preprocessOcrTextL_def (x : List Char) :
    preprocessOcrTextL x = levelTrunc (cleanedText x) := rfl

theorem cleanedText_trimmed (s : List Char) :
    jsTrim (cleanedText s) = cleanedText s :=
  jsTrim_idem (collapseBlank (stripQz (stripZhui (stripJp (stripNum (stripBr s))))))

theorem preprocessOcrTextL_idem (s : List Char) :
    preprocessOcrTextL (preprocessOcrTextL s) = preprocessOcrTextL s := by
  obtain ⟨hcleanp, htrimp, hlp⟩ :=
    levelTrunc_stable (cleanedText s) (cleanedText_clean s) (cleanedText_trimmed s)
  rw [preprocessOcrTextL_def, preprocessOcrTextL_def s,
    cleanedText_of_clean _ hcleanp, htrimp, hlp]

set_option maxHeartbeats 2000000 in
/-- C10: preprocessOcrText is idempotent: a second application of the
whole pipeline — the five substitutions, the blank-line collapse, the trim
and the level-requirement truncation — changes nothing, because the
once-processed text satisfies the four safety invariants on which every
scanner declines to match, is already trimmed, and re-truncates to
itself. -/
theorem preprocessOcrText_idem (s : String) :
    preprocessOcrText (preprocessOcrText s) = preprocessOcrText s :=
  congrArg String.mk (preprocessOcrTextL_idem s.data)
